import Mathlib

/-!
Verification of the sweep detection-and-evaluation pipeline
(`sweep_param_scan.py`, `analyze_sweep.py`, `offline_analyze.py`,
`orderbook_probe.py`).  Python floats are modelled as exact rationals,
Python lists as `List`, and per-index `while` loops as structural recursion
over the corresponding list suffix paired with the running index.
-/

/-! ## Data model: `sweep_param_scan.py` -/

/-- `TickRow` of `sweep_param_scan.py`: `{ts, price, vol, side(+1=Buy,-1=Sell)}`. -/
structure TickRow where
  ts : ℚ
  price : ℚ
  vol : ℚ
  side : Int
deriving DecidableEq

instance : Inhabited TickRow := ⟨⟨0, 0, 0, 0⟩⟩

/-- `PySweep` of `sweep_param_scan.py`. -/
structure PySweep where
  ts_start : ℚ
  ts_end : ℚ
  direction : Int
  price_start : ℚ
  price_end : ℚ
  volume_total : ℚ
deriving DecidableEq

instance : Inhabited PySweep := ⟨⟨0, 0, 0, 0, 0, 0⟩⟩

/-! ## Dense sweep detector: `detect_sweeps_py` (sweep_param_scan.py lines 47-110)

The inner `while j < n and ticks[j].ts - base_t <= window_sec` loop is
embedded as structural recursion over `rest = ticks.drop j`, carrying the
index `j` so that the returned scan end matches the Python `j`. -/

/-- The inner window scan of `detect_sweeps_py`: starting at index `j` with
`rest = ticks.drop j`, scan while `ticks[j].ts - base_t ≤ window_sec`,
updating `up_max` (`if p > up_max`), `dn_min` (`if p < dn_min`), `up_vol`
(`if p >= base_p`) and `dn_vol` (`if p <= base_p`); returns the final
`(j, up_max, dn_min, up_vol, dn_vol)`. -/
def sweepScan (base_p base_t window_sec : ℚ) :
    Nat → List TickRow → ℚ → ℚ → ℚ → ℚ → Nat × ℚ × ℚ × ℚ × ℚ
  | j, [], up_max, dn_min, up_vol, dn_vol => (j, up_max, dn_min, up_vol, dn_vol)
  | j, t :: rest, up_max, dn_min, up_vol, dn_vol =>
    if t.ts - base_t ≤ window_sec then
      sweepScan base_p base_t window_sec (j + 1) rest
        (if up_max < t.price then t.price else up_max)
        (if t.price < dn_min then t.price else dn_min)
        (if base_p ≤ t.price then up_vol + t.vol else up_vol)
        (if t.price ≤ base_p then dn_vol + t.vol else dn_vol)
    else (j, up_max, dn_min, up_vol, dn_vol)

/-- Python indexing `ticks[j-1]`: for `j = 0` the Python index is `-1`,
which wraps around to the last element of the list. -/
def pyPrev (ticks : List TickRow) (j : Nat) : TickRow :=
  if j = 0 then ticks.getLastD default else ticks.getD (j - 1) default

/-- One iteration of the outer loop of `detect_sweeps_py` at candidate start
index `i`: scan the window, compute `up_bp`/`dn_bp` and emit the Up event,
else the Down event, else nothing. -/
def detectAt (ticks : List TickRow) (window_sec price_bp_thresh vol_min : ℚ)
    (i : Nat) : Option PySweep :=
  let base := ticks.getD i default
  match sweepScan base.price base.ts window_sec i (ticks.drop i)
      base.price base.price 0 0 with
  | (j, up_max, dn_min, up_vol, dn_vol) =>
    let up_bp := (up_max - base.price) / base.price * 10000
    let dn_bp := (base.price - dn_min) / base.price * 10000
    if price_bp_thresh ≤ up_bp ∧ vol_min ≤ up_vol then
      some ⟨base.ts, (pyPrev ticks j).ts, 1, base.price, up_max, up_vol⟩
    else if price_bp_thresh ≤ dn_bp ∧ vol_min ≤ dn_vol then
      some ⟨base.ts, (pyPrev ticks j).ts, -1, base.price, dn_min, dn_vol⟩
    else none

/-- The outer `while i < n` loop of `detect_sweeps_py`, with
`rest = ticks.drop i` as the structural recursion argument. -/
def detectLoop (ticks : List TickRow) (window_sec price_bp_thresh vol_min : ℚ) :
    Nat → List TickRow → List PySweep
  | _, [] => []
  | i, _ :: rest =>
    match detectAt ticks window_sec price_bp_thresh vol_min i with
    | some ev => ev :: detectLoop ticks window_sec price_bp_thresh vol_min (i + 1) rest
    | none => detectLoop ticks window_sec price_bp_thresh vol_min (i + 1) rest

/-- `detect_sweeps_py(ticks, window_sec, price_bp_thresh, vol_min)`. -/
def detect_sweeps_py (ticks : List TickRow)
    (window_sec price_bp_thresh vol_min : ℚ) : List PySweep :=
  detectLoop ticks window_sec price_bp_thresh vol_min 0 ticks

/-- Sorted-by-timestamp predicate for tick lists (the detector's input
contract: `load_ticks` sorts by `ts`). -/
def TsSorted (ticks : List TickRow) : Prop :=
  ticks.Pairwise (fun a b => a.ts ≤ b.ts)

/-- The §4.1 window candidate at index `i` as the spec words it: the window
is exactly the forward ticks with `ts[j] − ts[i] ≤ window_sec`; `up_max` and
`dn_min` are the running maximum/minimum price over it; `up_vol`/`dn_vol`
sum the volume of the window ticks with price ≥/≤ the base price (a tick
exactly at the base price counts in both sums); an Up event spanning
`[base_time, ts of the last window tick]` with `price_end = up_max` and
`volume_total = up_vol` is emitted when `up_bp ≥ price_threshold_bp` and
`up_vol ≥ volume_min`; otherwise a Down event symmetrically (Up preferred);
otherwise nothing. -/
def specCandidate (ticks : List TickRow) (window_sec price_bp_thresh vol_min : ℚ)
    (i : Nat) : Option PySweep :=
  let base := ticks.getD i default
  let win := (ticks.drop i).filter (fun t => decide (t.ts - base.ts ≤ window_sec))
  let up_max := win.foldl (fun m t => max m t.price) base.price
  let dn_min := win.foldl (fun m t => min m t.price) base.price
  let up_vol := ((win.filter (fun t => decide (base.price ≤ t.price))).map (fun t => t.vol)).sum
  let dn_vol := ((win.filter (fun t => decide (t.price ≤ base.price))).map (fun t => t.vol)).sum
  let t_end := (win.getLastD default).ts
  if price_bp_thresh ≤ (up_max - base.price) / base.price * 10000 ∧ vol_min ≤ up_vol then
    some ⟨base.ts, t_end, 1, base.price, up_max, up_vol⟩
  else if price_bp_thresh ≤ (base.price - dn_min) / base.price * 10000 ∧ vol_min ≤ dn_vol then
    some ⟨base.ts, t_end, -1, base.price, dn_min, dn_vol⟩
  else none

/-! ## Forward-outcome evaluator of `analyze_sweep.py` and `offline_analyze.py` -/

/-- `TickRow` of `analyze_sweep.py` / `offline_analyze.py`: `{ts, price}`. -/
structure TickRowA where
  ts : ℚ
  price : ℚ
deriving DecidableEq

instance : Inhabited TickRowA := ⟨⟨0, 0⟩⟩

/-- `SweepRow` of `analyze_sweep.py` / `offline_analyze.py`. -/
structure SweepRow where
  ts_start : ℚ
  ts_end : ℚ
  direction : Int
  price_start : ℚ
  price_end : ℚ
  volume_total : ℚ
deriving DecidableEq

instance : Inhabited SweepRow := ⟨⟨0, 0, 0, 0, 0, 0⟩⟩

/-- One result tuple `(direction, ret_h, mfe_h, mae_h, volume_total)` of
`analyze_sweep.compute_ret_mfe_mae`. -/
structure OutcomeA where
  direction : Int
  ret_h : ℚ
  mfe_h : ℚ
  mae_h : ℚ
  volume_total : ℚ
deriving DecidableEq

/-- One result tuple `(direction, ret_30, MFE_30, MAE_30, price0)` of
`offline_analyze.compute_ret_mfe_mae`. -/
structure OutcomeP where
  direction : Int
  ret_30 : ℚ
  mfe_30 : ℚ
  mae_30 : ℚ
  price0 : ℚ
deriving DecidableEq

/-- The linear search `for i in range(n): if ts_list[i] >= t0: i0 = i; break`
of `analyze_sweep.compute_ret_mfe_mae`, from index `i` with
`rest = ticks.drop i`. -/
def firstIdxFrom (t0 : ℚ) : Nat → List TickRowA → Option Nat
  | _, [] => none
  | i, t :: rest => if t0 ≤ t.ts then some i else firstIdxFrom t0 (i + 1) rest

/-- The horizon scan `while j < n and ts_list[j] <= t1` shared verbatim by
`analyze_sweep.compute_ret_mfe_mae` and `offline_analyze.compute_ret_mfe_mae`:
from index `j` with `rest = ticks.drop j`, track the running max/min price;
returns `(j, max_p, min_p)`. -/
def horizonScan (t1 : ℚ) : Nat → List TickRowA → ℚ → ℚ → Nat × ℚ × ℚ
  | j, [], max_p, min_p => (j, max_p, min_p)
  | j, t :: rest, max_p, min_p =>
    if t.ts ≤ t1 then
      horizonScan t1 (j + 1) rest
        (if max_p < t.price then t.price else max_p)
        (if t.price < min_p then t.price else min_p)
    else (j, max_p, min_p)

/-- The per-event body of `analyze_sweep.compute_ret_mfe_mae` (lines 99-139):
full fresh scan for `i0`, horizon scan, the two skip conditions (`i0 is None`
and `j == i0`), and the direction-dependent `mfe`/`mae` formulas. -/
def evalEventA (ticks : List TickRowA) (horizon : ℚ) (ev : SweepRow) : Option OutcomeA :=
  let t0 := ev.ts_end
  let t1 := t0 + horizon
  match firstIdxFrom t0 0 ticks with
  | none => none
  | some i0 =>
    let price0 := (ticks.getD i0 default).price
    match horizonScan t1 i0 (ticks.drop i0) price0 price0 with
    | (j, max_p, min_p) =>
      if j = i0 then none
      else
        let priceT := (ticks.getD (j - 1) default).price
        let ret_h := (priceT - price0) / price0
        if ev.direction < 0 then
          some ⟨ev.direction, ret_h, (min_p - price0) / price0,
            (max_p - price0) / price0, ev.volume_total⟩
        else
          some ⟨ev.direction, ret_h, (max_p - price0) / price0,
            (min_p - price0) / price0, ev.volume_total⟩

/-- `analyze_sweep.compute_ret_mfe_mae(ticks, sweeps, horizon)`: one
independent full scan per event, collecting the produced records in event
order. -/
def compute_ret_mfe_mae_analyze (ticks : List TickRowA) (sweeps : List SweepRow)
    (horizon : ℚ) : List OutcomeA :=
  sweeps.filterMap (evalEventA ticks horizon)

/-- `T_HORIZON = 30.0` of `offline_analyze.py`. -/
def T_HORIZON_OFFLINE : ℚ := 30

/-- The pointer advance `while idx < n and ticks[idx].ts < t0: idx += 1` of
`offline_analyze.compute_ret_mfe_mae`, from `rest = ticks.drop idx`. -/
def advanceIdx (t0 : ℚ) : Nat → List TickRowA → Nat
  | idx, [] => idx
  | idx, t :: rest => if t.ts < t0 then advanceIdx t0 (idx + 1) rest else idx

/-- The event loop of `offline_analyze.compute_ret_mfe_mae` (lines 53-109):
a single monotonically advancing pointer `idx` shared across events, a
`break` when the pointer passes the end of the ticks, and otherwise the same
horizon scan and formulas as the per-event evaluator. -/
def offlineLoop (ticks : List TickRowA) (horizon : ℚ) :
    List SweepRow → Nat → List OutcomeP
  | [], _ => []
  | ev :: rest, idx =>
    let t0 := ev.ts_end
    let t1 := t0 + horizon
    let idx2 := advanceIdx t0 idx (ticks.drop idx)
    if idx2 < ticks.length then
      let price0 := (ticks.getD idx2 default).price
      match horizonScan t1 idx2 (ticks.drop idx2) price0 price0 with
      | (j, max_p, min_p) =>
        if j = idx2 then offlineLoop ticks horizon rest idx2
        else
          let priceT := (ticks.getD (j - 1) default).price
          let ret := (priceT - price0) / price0
          (if ev.direction < 0 then
            (⟨ev.direction, ret, (min_p - price0) / price0,
              (max_p - price0) / price0, price0⟩ : OutcomeP)
          else
            ⟨ev.direction, ret, (max_p - price0) / price0,
              (min_p - price0) / price0, price0⟩) ::
          offlineLoop ticks horizon rest idx2
    else []

/-- `offline_analyze.compute_ret_mfe_mae(ticks, sweeps)` (horizon is the
module constant `T_HORIZON = 30.0`). -/
def compute_ret_mfe_mae_offline (ticks : List TickRowA) (sweeps : List SweepRow) :
    List OutcomeP :=
  offlineLoop ticks T_HORIZON_OFFLINE sweeps 0

/-- Sortedness of the evaluator tick input (both offline entry points sort
their tick file by `ts` at load time). -/
def TsSortedA (ticks : List TickRowA) : Prop :=
  ticks.Pairwise (fun a b => a.ts ≤ b.ts)

/-- Sortedness of the offline event input (`load_sweeps` sorts by `ts_end`). -/
def TsEndSorted (sweeps : List SweepRow) : Prop :=
  sweeps.Pairwise (fun a b => a.ts_end ≤ b.ts_end)

/-- The first four components `(direction, ret, mfe, mae)` of an
`analyze_sweep` outcome record. -/
def outcomeKeyA (o : OutcomeA) : Int × ℚ × ℚ × ℚ := (o.direction, o.ret_h, o.mfe_h, o.mae_h)

/-- The first four components `(direction, ret, mfe, mae)` of an
`offline_analyze` outcome record. -/
def outcomeKeyP (o : OutcomeP) : Int × ℚ × ℚ × ℚ := (o.direction, o.ret_30, o.mfe_30, o.mae_30)

/-- The ticks in the horizon window `[t0, t1]` (§4.3 of the spec). -/
def horizonWindow (ticks : List TickRowA) (t0 t1 : ℚ) : List TickRowA :=
  ticks.filter (fun t => decide (t0 ≤ t.ts ∧ t.ts ≤ t1))

/-- The §4.3 outcome record as the spec words it: `price0` is the price of
the first tick of the horizon window (the first tick with `ts ≥ t0`),
`priceT` the price of the last tick with `ts ≤ t1`, `max_price`/`min_price`
the running extremes over the window ticks starting from `price0`,
`ret_h = (priceT − price0)/price0`, and for a Down event
`mfe_h = (min_price − price0)/price0`, `mae_h = (max_price − price0)/price0`,
with the two formulas swapped for an Up event; no record when the window is
empty. -/
def specOutcome (ticks : List TickRowA) (horizon : ℚ) (ev : SweepRow) : Option OutcomeA :=
  let t0 := ev.ts_end
  let t1 := t0 + horizon
  match horizonWindow ticks t0 t1 with
  | [] => none
  | w0 :: ws =>
    let price0 := w0.price
    let max_p := (w0 :: ws).foldl (fun m t => max m t.price) price0
    let min_p := (w0 :: ws).foldl (fun m t => min m t.price) price0
    let priceT := ((ticks.filter (fun t => decide (t.ts ≤ t1))).getLastD default).price
    let ret_h := (priceT - price0) / price0
    if ev.direction < 0 then
      some ⟨ev.direction, ret_h, (min_p - price0) / price0,
        (max_p - price0) / price0, ev.volume_total⟩
    else
      some ⟨ev.direction, ret_h, (max_p - price0) / price0,
        (min_p - price0) / price0, ev.volume_total⟩

/-- Modelled from the spec: the streaming `SweepModel` engine (`sweep_core`,
imported by `analyze_sweep.py` but not among the repository's files) is a
black box that, per processed tick, either reports `NoSignal` or raises a
signal and exposes a last event shaped like a `SweepEvent` "plus
`direction = 0` for an un-directional/both-sided spike".  Its per-tick
observable output is modelled as `Option SweepRow` (`none` = NoSignal).
The collection loop of `generate_sweeps_from_ticks` (analyze_sweep.py lines
60-84) appends the exposed event unless `ev.direction == 0`. -/
def generate_sweeps_from_ticks (outs : List (Option SweepRow)) : List SweepRow :=
  outs.filterMap (fun o =>
    match o with
    | none => none
    | some ev => if ev.direction = 0 then none else some ev)

/-! ## `compute_ret_stats` and the grid search of `sweep_param_scan.py` -/

/-- `T_HORIZON = 30.0` of `sweep_param_scan.py`. -/
def T_HORIZON : ℚ := 30

/-- The `i0` search of `compute_ret_stats` (same linear scan as the
evaluator, over the 4-field tick rows). -/
def firstIdxFromT (t0 : ℚ) : Nat → List TickRow → Option Nat
  | _, [] => none
  | i, t :: rest => if t0 ≤ t.ts then some i else firstIdxFromT t0 (i + 1) rest

/-- The horizon scan of `compute_ret_stats` (tracks the same running
max/min, over the 4-field tick rows). -/
def horizonScanT (t1 : ℚ) : Nat → List TickRow → ℚ → ℚ → Nat × ℚ × ℚ
  | j, [], max_p, min_p => (j, max_p, min_p)
  | j, t :: rest, max_p, min_p =>
    if t.ts ≤ t1 then
      horizonScanT t1 (j + 1) rest
        (if max_p < t.price then t.price else max_p)
        (if t.price < min_p then t.price else min_p)
    else (j, max_p, min_p)

/-- The per-event body of `compute_ret_stats` (sweep_param_scan.py lines
111-155): the same two skip conditions, returning only the horizon return. -/
def retForSweep (ticks : List TickRow) (horizon : ℚ) (ev : PySweep) : Option ℚ :=
  let t0 := ev.ts_end
  let t1 := t0 + horizon
  match firstIdxFromT t0 0 ticks with
  | none => none
  | some i0 =>
    let p0 := (ticks.getD i0 default).price
    match horizonScanT t1 i0 (ticks.drop i0) p0 p0 with
    | (j, _, _) =>
      if j = i0 then none
      else some (((ticks.getD (j - 1) default).price - p0) / p0)

/-- `compute_ret_stats(ticks, sweeps, horizon)`: the returned pair
`(down_rets, up_rets)` splits the per-event returns by `ev.direction < 0`,
keeping event order within each list. -/
def compute_ret_stats (ticks : List TickRow) (sweeps : List PySweep)
    (horizon : ℚ) : List ℚ × List ℚ :=
  match sweeps with
  | [] => ([], [])
  | ev :: rest =>
    let tail := compute_ret_stats ticks rest horizon
    match retForSweep ticks horizon ev with
    | none => tail
    | some r =>
      if ev.direction < 0 then (r :: tail.1, tail.2) else (tail.1, r :: tail.2)

/-- `WINDOW_LIST = [0.3, 0.6, 1.0]`. -/
def WINDOW_LIST : List ℚ := [3/10, 3/5, 1]

/-- `PRICE_BP_LIST = [3, 5, 8]`. -/
def PRICE_BP_LIST : List ℚ := [3, 5, 8]

/-- `VOL_MIN_LIST = [2.0, 5.0, 10.0]`. -/
def VOL_MIN_LIST : List ℚ := [2, 5, 10]

/-- One reported configuration of the grid search: the parameter tuple, the
detector output, and the evaluator output for that tuple. -/
structure GridEntry where
  window : ℚ
  bp : ℚ
  vol_min : ℚ
  sweeps : List PySweep
  down_rets : List ℚ
  up_rets : List ℚ
deriving DecidableEq

/-- The triple loop of `sweep_param_scan.main` (lines 173-189): for each
`w ∈ WINDOW_LIST`, `bp ∈ PRICE_BP_LIST`, `vol_min ∈ VOL_MIN_LIST` (outer to
inner, in list order) run `detect_sweeps_py` then `compute_ret_stats` and
report the configuration. -/
def gridResults (ticks : List TickRow) : List GridEntry :=
  WINDOW_LIST.flatMap (fun w =>
    PRICE_BP_LIST.flatMap (fun bp =>
      VOL_MIN_LIST.map (fun vm =>
        let sweeps := detect_sweeps_py ticks w bp vm
        let stats := compute_ret_stats ticks sweeps T_HORIZON
        ⟨w, bp, vm, sweeps, stats.1, stats.2⟩)))

/-! ## `orderbook_probe.py`: AggFlowTracker, OrderBookL2, ProbeReporter -/

/-- One element of `AggFlowTracker.trades`: `(ts, dir (+1 or -1), vol)`. -/
structure TradeObs where
  ts : ℚ
  dir : Int
  vol : ℚ
deriving DecidableEq

instance : Inhabited TradeObs := ⟨⟨0, 0, 0⟩⟩

/-- `self.windows[-1]` — the largest window (the constructor sorts the
window list, so its last element is its maximum). -/
def lastWindow (windows : List ℚ) : ℚ := windows.getLastD 0

/-- `AggFlowTracker._prune(ts_now)`: pop from the front while the front
observation is older than `ts_now - windows[-1]`. -/
def agg_prune (windows : List ℚ) (trades : List TradeObs) (ts_now : ℚ) :
    List TradeObs :=
  trades.dropWhile (fun t => decide (t.ts < ts_now - lastWindow windows))

/-- `AggFlowTracker.add_trade(ts, side, vol)`: append the signed observation
(+1 when `side.lower()` starts with "b", else -1), then prune at `ts`. -/
def add_trade (windows : List ℚ) (trades : List TradeObs) (ts : ℚ)
    (side : String) (vol : ℚ) : List TradeObs :=
  let direction : Int := if side.toLower.startsWith "b" then 1 else -1
  agg_prune windows (trades ++ [⟨ts, direction, vol⟩]) ts

/-- The per-window record of `AggFlowTracker.summary`. -/
structure FlowStats where
  buy : ℚ
  sell : ℚ
  total : ℚ
  buy_share : ℚ
  net : ℚ
deriving DecidableEq

/-- The per-window sums of `AggFlowTracker.summary`: volume of retained
observations aged ≤ `w`, split by sign of the direction, with
`buy_share = buy/total if total > 0 else 0` and `net = buy - sell`. -/
def windowStats (trades : List TradeObs) (ts_now w : ℚ) : FlowStats :=
  let buy := ((trades.filter (fun t => decide (ts_now - t.ts ≤ w ∧ 0 < t.dir))).map
    (fun t => t.vol)).sum
  let sell := ((trades.filter (fun t => decide (ts_now - t.ts ≤ w ∧ ¬0 < t.dir))).map
    (fun t => t.vol)).sum
  { buy := buy, sell := sell, total := buy + sell,
    buy_share := if 0 < buy + sell then buy / (buy + sell) else 0,
    net := buy - sell }

/-- `AggFlowTracker.summary(ts_now)`: prunes (mutating the retained deque —
returned here as the first component) and returns per-window stats in window
order. -/
def agg_summary (windows : List ℚ) (trades : List TradeObs) (ts_now : ℚ) :
    List TradeObs × List (ℚ × FlowStats) :=
  let pruned := agg_prune windows trades ts_now
  (pruned, windows.map (fun w => (w, windowStats pruned ts_now w)))

/-- One element of `ProbeReporter.bias_hist`. -/
structure BiasSample where
  ts : ℚ
  dir : Int
  net : ℚ
  share : ℚ
deriving DecidableEq

instance : Inhabited BiasSample := ⟨⟨0, 0, 0, 0⟩⟩

/-- The record returned by `ProbeReporter._detect_run` on success. -/
structure RunInfo where
  dir : String
  net : ℚ
  share : ℚ
deriving DecidableEq

/-- Append to `bias_hist`, a `deque(maxlen=5)`: the oldest sample is dropped
when the deque is full. -/
def pushBias (hist : List BiasSample) (s : BiasSample) : List BiasSample :=
  if 5 ≤ hist.length then hist.tail ++ [s] else hist ++ [s]

/-- `ProbeReporter._detect_run(ts_now, agg_stats)` (orderbook_probe.py lines
157-196), taking the shortest (1-second) window's stats, already looked up,
as `one_sec`: returns the updated `bias_hist` and the optional run record. -/
def detect_run (hist : List BiasSample) (ts_now : ℚ) (one_sec : Option FlowStats) :
    List BiasSample × Option RunInfo :=
  match one_sec with
  | none => (hist, none)
  | some s =>
    if s.total ≤ 0 then (hist, none)
    else
      let direction : Int := if 0 < s.net then 1 else if s.net < 0 then -1 else 0
      if direction = 0 then (hist, none)
      else
        let hist2 := pushBias hist ⟨ts_now, direction, s.net, s.buy_share⟩
        if hist2.length < 3 then (hist2, none)
        else
          let recent := hist2.drop (hist2.length - 3)
          let r0 := recent.getD 0 default
          let r1 := recent.getD 1 default
          let r2 := recent.getD 2 default
          if r0.dir ≠ 0 ∧ r1.dir = r0.dir ∧ r2.dir = r0.dir then
            if (|r0.net| ≤ |r1.net| ∧ |r1.net| ≤ |r2.net|) ∧
                (if 0 < r0.dir then 7/10 ≤ r2.share else r2.share ≤ 3/10) then
              (hist2, some ⟨if 0 < r0.dir then "BUY" else "SELL", r2.net, r2.share⟩)
            else (hist2, none)
          else (hist2, none)

/-- The last three recorded samples of a bias history. -/
def lastThree (hist : List BiasSample) : List BiasSample :=
  hist.drop (hist.length - 3)

/-- §4.2's run trigger rule, as the spec words it, on a recorded bias
history: at least 3 samples are recorded, the last 3 share the same non-zero
direction `d`, their absolute net magnitudes are non-decreasing, and the
most recent buy share is ≥ 0.7 for a buy run or ≤ 0.3 for a sell run. -/
def specRun (hist : List BiasSample) (d : Int) : Prop :=
  3 ≤ hist.length ∧ d ≠ 0 ∧
  (∀ r ∈ lastThree hist, r.dir = d) ∧
  (lastThree hist).Pairwise (fun a b => |a.net| ≤ |b.net|) ∧
  (if 0 < d then 7/10 ≤ ((lastThree hist).getLastD default).share
   else ((lastThree hist).getLastD default).share ≤ 3/10)

/-- `OrderBookL2.best_bid()`: max bid price, `None` when the bid map is
empty.  The book side is modelled as its list of `(price, size)` items. -/
def best_bid (bids : List (ℚ × ℚ)) : Option ℚ := (bids.map (fun l => l.1)).max?

/-- `OrderBookL2.best_ask()`: min ask price, `None` when empty. -/
def best_ask (asks : List (ℚ × ℚ)) : Option ℚ := (asks.map (fun l => l.1)).min?

/-- `OrderBookL2.mid()`: `0.5 * (best_bid + best_ask)`, `None` when either
side is empty. -/
def obMid (bids asks : List (ℚ × ℚ)) : Option ℚ :=
  match best_bid bids, best_ask asks with
  | some b, some a => some ((1/2) * (b + a))
  | _, _ => none

/-- `OrderBookL2.liquidity_within(pct)`: `(0, 0)` when the mid is undefined,
else cumulative bid size at prices ≥ `mid*(1-pct)` and cumulative ask size
at prices ≤ `mid*(1+pct)`. -/
def liquidity_within (bids asks : List (ℚ × ℚ)) (pct : ℚ) : ℚ × ℚ :=
  match obMid bids asks with
  | none => (0, 0)
  | some mid =>
    let lower := mid * (1 - pct)
    let upper := mid * (1 + pct)
    (((bids.filter (fun l => decide (lower ≤ l.1))).map (fun l => l.2)).sum,
     ((asks.filter (fun l => decide (l.1 ≤ upper))).map (fun l => l.2)).sum)

/-- The weak-side check of `ProbeReporter.maybe_emit` (orderbook_probe.py
lines 213-231) for one band's depths: only when both depths are positive,
flag "bid" when `bid_depth < 0.4 * ask_depth` (ratio `bid/ask`), else flag
"ask" when `ask_depth < 0.4 * bid_depth` (ratio `ask/bid`). -/
def weakSide (bid_depth ask_depth : ℚ) : Option (String × ℚ) :=
  if 0 < bid_depth ∧ 0 < ask_depth then
    if bid_depth < 4/10 * ask_depth then some ("bid", bid_depth / ask_depth)
    else if ask_depth < 4/10 * bid_depth then some ("ask", ask_depth / bid_depth)
    else none
  else none

/-- The weak-side flag `maybe_emit` computes for one configured band. -/
def weakSideForBand (bids asks : List (ℚ × ℚ)) (pct : ℚ) : Option (String × ℚ) :=
  weakSide (liquidity_within bids asks pct).1 (liquidity_within bids asks pct).2

/-! ## Generic list lemmas -/

lemma getD_drop {α : Type} (d : α) :
    ∀ (l : List α) (i k : Nat), (l.drop i).getD k d = l.getD (i + k) d := by
  intro l
  induction l with
  | nil => intro i k; simp
  | cons a l ih =>
    intro i k
    match i with
    | 0 => simp
    | i + 1 =>
      show (l.drop i).getD k d = (a :: l).getD (i + 1 + k) d
      rw [ih i k]
      have : i + 1 + k = (i + k) + 1 := by omega
      rw [this, List.getD_cons_succ]

lemma takeWhile_eq_filter_of_mono {α : Type} (key : α → ℚ) (p : α → Bool)
    (hmono : ∀ a b, key a ≤ key b → p b = true → p a = true) :
    ∀ (l : List α), l.Pairwise (fun a b => key a ≤ key b) →
    l.takeWhile p = l.filter p := by
  intro l
  induction l with
  | nil => intro _; rfl
  | cons a l ih =>
    intro hl
    rw [List.pairwise_cons] at hl
    rcases hl with ⟨ha, hl⟩
    by_cases hpa : p a = true
    · rw [List.takeWhile_cons, List.filter_cons, if_pos hpa, if_pos hpa, ih hl]
    · rw [List.takeWhile_cons, List.filter_cons, if_neg hpa, if_neg hpa]
      have : ∀ b ∈ l, ¬p b = true := by
        intro b hb hpb
        exact hpa (hmono a b (ha b hb) hpb)
      rw [List.filter_eq_nil_iff.mpr this]

lemma takeWhile_getD {α : Type} (p : α → Bool) (d : α) :
    ∀ (l : List α) (k : Nat), k < (l.takeWhile p).length →
    (l.takeWhile p).getD k d = l.getD k d := by
  intro l
  induction l with
  | nil => intro k hk; simp at hk
  | cons a l ih =>
    intro k hk
    rw [List.takeWhile_cons] at hk ⊢
    by_cases hpa : p a = true
    · rw [if_pos hpa] at hk ⊢
      match k with
      | 0 => rfl
      | k + 1 =>
        rw [List.getD_cons_succ, List.getD_cons_succ]
        exact ih k (by simpa using hk)
    · rw [if_neg hpa] at hk
      simp at hk

lemma getLastD_eq_getD {α : Type} (d : α) (l : List α) (h : l ≠ []) :
    l.getLastD d = l.getD (l.length - 1) d := by
  have hlt : l.length - 1 < l.length := by
    cases l with
    | nil => exact absurd rfl h
    | cons a l => simp
  rw [List.getLastD_eq_getLast?, List.getLast?_eq_getElem?,
    List.getD_eq_getElem?_getD, List.getElem?_eq_getElem hlt]

lemma getLastD_mem {α : Type} (d : α) (l : List α) (h : l ≠ []) :
    l.getLastD d ∈ l := by
  have hlt : l.length - 1 < l.length := by
    cases l with
    | nil => exact absurd rfl h
    | cons a l => simp
  rw [List.getLastD_eq_getLast?, List.getLast?_eq_getElem?,
    List.getElem?_eq_getElem hlt]
  exact List.getElem_mem hlt

lemma foldl_if_max {α : Type} (f : α → ℚ) :
    ∀ (l : List α) (m : ℚ),
    l.foldl (fun m t => if m < f t then f t else m) m =
      l.foldl (fun m t => max m (f t)) m := by
  intro l
  induction l with
  | nil => intro m; rfl
  | cons a l ih =>
    intro m
    have hstep : (if m < f a then f a else m) = max m (f a) := by
      rcases le_or_lt (f a) m with h | h
      · rw [if_neg (not_lt.mpr h), max_eq_left h]
      · rw [if_pos h, max_eq_right h.le]
    simp only [List.foldl_cons, hstep, ih]

lemma foldl_if_min {α : Type} (f : α → ℚ) :
    ∀ (l : List α) (m : ℚ),
    l.foldl (fun m t => if f t < m then f t else m) m =
      l.foldl (fun m t => min m (f t)) m := by
  intro l
  induction l with
  | nil => intro m; rfl
  | cons a l ih =>
    intro m
    have hstep : (if f a < m then f a else m) = min m (f a) := by
      rcases le_or_lt m (f a) with h | h
      · rw [if_neg (not_lt.mpr h), min_eq_left h]
      · rw [if_pos h, min_eq_right h.le]
    simp only [List.foldl_cons, hstep, ih]

lemma foldl_if_add {α : Type} (f : α → ℚ) (P : α → Prop) [DecidablePred P] :
    ∀ (l : List α) (s : ℚ),
    l.foldl (fun s t => if P t then s + f t else s) s =
      s + ((l.filter (fun t => decide (P t))).map f).sum := by
  intro l
  induction l with
  | nil => intro s; simp
  | cons a l ih =>
    intro s
    by_cases hpa : P a
    · simp only [List.foldl_cons, if_pos hpa, List.filter_cons,
        decide_eq_true hpa, ih]
      simp [add_assoc]
    · simp only [List.foldl_cons, if_neg hpa, List.filter_cons, ih]
      simp [hpa]

/-! ## Detector lemmas -/

lemma sweepScan_eq (base_p base_t window_sec : ℚ) :
    ∀ (rest : List TickRow) (j : Nat) (um dm uv dv : ℚ),
    sweepScan base_p base_t window_sec j rest um dm uv dv =
      (j + (rest.takeWhile (fun t => decide (t.ts - base_t ≤ window_sec))).length,
       (rest.takeWhile (fun t => decide (t.ts - base_t ≤ window_sec))).foldl
         (fun m t => if m < t.price then t.price else m) um,
       (rest.takeWhile (fun t => decide (t.ts - base_t ≤ window_sec))).foldl
         (fun m t => if t.price < m then t.price else m) dm,
       (rest.takeWhile (fun t => decide (t.ts - base_t ≤ window_sec))).foldl
         (fun s t => if base_p ≤ t.price then s + t.vol else s) uv,
       (rest.takeWhile (fun t => decide (t.ts - base_t ≤ window_sec))).foldl
         (fun s t => if t.price ≤ base_p then s + t.vol else s) dv) := by
  intro rest
  induction rest with
  | nil => intro j um dm uv dv; simp [sweepScan]
  | cons t rest ih =>
    intro j um dm uv dv
    by_cases h : t.ts - base_t ≤ window_sec
    · rw [show sweepScan base_p base_t window_sec j (t :: rest) um dm uv dv =
          sweepScan base_p base_t window_sec (j + 1) rest
            (if um < t.price then t.price else um)
            (if t.price < dm then t.price else dm)
            (if base_p ≤ t.price then uv + t.vol else uv)
            (if t.price ≤ base_p then dv + t.vol else dv) from by
        simp [sweepScan, h]]
      rw [ih]
      simp only [List.takeWhile_cons, decide_eq_true h, if_pos]
      refine Prod.ext (by simp; omega) (Prod.ext rfl (Prod.ext rfl (Prod.ext rfl rfl)))
    · rw [show sweepScan base_p base_t window_sec j (t :: rest) um dm uv dv =
          (j, um, dm, uv, dv) from by simp [sweepScan, h]]
      simp only [List.takeWhile_cons, decide_eq_false h]
      simp

lemma detectAt_eq_spec (ticks : List TickRow) (w bp vm : ℚ) (i : Nat)
    (hs : TsSorted ticks) (hw : 0 ≤ w) (hi : i < ticks.length) :
    detectAt ticks w bp vm i = specCandidate ticks w bp vm i := by
  have hbase : ticks.getD i default = ticks[i] := List.getD_eq_getElem ticks default hi
  have hdrop : ticks.drop i = ticks[i] :: ticks.drop (i + 1) :=
    List.drop_eq_getElem_cons hi
  have hdropSorted : (ticks.drop i).Pairwise (fun a b => a.ts ≤ b.ts) :=
    List.Pairwise.sublist (List.drop_sublist i ticks) hs
  have htwf :
      (ticks.drop i).takeWhile
          (fun t => decide (t.ts - (ticks.getD i default).ts ≤ w)) =
        (ticks.drop i).filter
          (fun t => decide (t.ts - (ticks.getD i default).ts ≤ w)) := by
    refine takeWhile_eq_filter_of_mono (fun t => t.ts) _ ?_ _ hdropSorted
    intro a b hab hb
    simp only [decide_eq_true_eq] at hb ⊢
    linarith
  have hwin_cons : ∃ rest,
      (ticks.drop i).filter
          (fun t => decide (t.ts - (ticks.getD i default).ts ≤ w)) =
        ticks[i] :: rest := by
    rw [hdrop, List.filter_cons,
      if_pos (by rw [hbase]; simp only [sub_self, decide_eq_true_eq]; exact hw)]
    exact ⟨_, rfl⟩
  obtain ⟨wrest, hwc⟩ := hwin_cons
  have hwin_ne :
      (ticks.drop i).filter
          (fun t => decide (t.ts - (ticks.getD i default).ts ≤ w)) ≠ [] := by
    rw [hwc]; simp
  have hlen_pos :
      0 < ((ticks.drop i).filter
        (fun t => decide (t.ts - (ticks.getD i default).ts ≤ w))).length := by
    rw [hwc]; simp
  -- ts[j-1] is the last window tick
  have hlast : ∀ L : List TickRow,
      L = (ticks.drop i).filter
        (fun t => decide (t.ts - (ticks.getD i default).ts ≤ w)) →
      pyPrev ticks (i + L.length) = L.getLastD default := by
    intro L hL
    have hLne : L ≠ [] := hL ▸ hwin_ne
    have hLpos : 0 < L.length := hL ▸ hlen_pos
    have hj0 : ¬(i + L.length = 0) := by omega
    rw [pyPrev, if_neg hj0]
    rw [getLastD_eq_getD default L hLne]
    have hidx : i + L.length - 1 = i + (L.length - 1) := by omega
    rw [hidx, ← getD_drop default ticks i (L.length - 1)]
    have hlen_eq :
        ((ticks.drop i).takeWhile
          (fun t => decide (t.ts - (ticks.getD i default).ts ≤ w))).length = L.length := by
      rw [htwf, ← hL]
    conv_rhs => rw [hL, ← htwf]
    rw [hlen_eq,
      takeWhile_getD _ default (ticks.drop i) (L.length - 1) (by rw [hlen_eq]; omega)]
  have hlast' := hlast _ rfl
  -- unfold both sides
  rw [detectAt, specCandidate]
  simp only [sweepScan_eq, htwf, hlast',
    foldl_if_max (fun t : TickRow => t.price),
    foldl_if_min (fun t : TickRow => t.price),
    foldl_if_add (fun t : TickRow => t.vol) (fun t => (ticks.getD i default).price ≤ t.price),
    foldl_if_add (fun t : TickRow => t.vol) (fun t => t.price ≤ (ticks.getD i default).price),
    zero_add]

lemma detectLoop_eq_filterMap (ticks : List TickRow) (w bp vm : ℚ) :
    ∀ (rest : List TickRow) (i : Nat), rest = ticks.drop i →
    detectLoop ticks w bp vm i rest =
      (List.range' i rest.length).filterMap (detectAt ticks w bp vm) := by
  intro rest
  induction rest with
  | nil => intro i _; simp [detectLoop]
  | cons x rest ih =>
    intro i hresteq
    have hrest : rest = ticks.drop (i + 1) := by
      have := congrArg List.tail hresteq
      simpa [List.tail_drop] using this
    rw [show (x :: rest).length = rest.length + 1 from rfl,
      List.range'_succ, List.filterMap_cons]
    rw [show detectLoop ticks w bp vm i (x :: rest) =
        match detectAt ticks w bp vm i with
        | some ev => ev :: detectLoop ticks w bp vm (i + 1) rest
        | none => detectLoop ticks w bp vm (i + 1) rest from rfl]
    rcases h : detectAt ticks w bp vm i with _ | ev
    · simpa using ih (i + 1) hrest
    · simpa using ih (i + 1) hrest

lemma detect_eq_filterMap (ticks : List TickRow) (w bp vm : ℚ) :
    detect_sweeps_py ticks w bp vm =
      (List.range ticks.length).filterMap (detectAt ticks w bp vm) := by
  rw [detect_sweeps_py, detectLoop_eq_filterMap ticks w bp vm ticks 0 (by simp),
    List.range_eq_range']

lemma detect_eq_filterMap_spec (ticks : List TickRow) (w bp vm : ℚ)
    (hs : TsSorted ticks) (hw : 0 ≤ w) :
    detect_sweeps_py ticks w bp vm =
      (List.range ticks.length).filterMap (specCandidate ticks w bp vm) := by
  rw [detect_eq_filterMap]
  exact List.filterMap_congr fun i hi =>
    detectAt_eq_spec ticks w bp vm i hs hw (List.mem_range.mp hi)

lemma up_bp_bound {b u bp : ℚ} (hb : 0 < b) (h : bp ≤ (u - b) / b * 10000) :
    b * (1 + bp / 10000) ≤ u := by
  rw [div_mul_eq_mul_div, le_div_iff hb] at h
  have h2 : bp * b / 10000 ≤ u - b := by
    rw [div_le_iff (by norm_num : (0:ℚ) < 10000)]; linarith
  have h3 : b * (1 + bp / 10000) = b + bp * b / 10000 := by ring
  linarith

lemma dn_bp_bound {b dnm bp : ℚ} (hb : 0 < b) (h : bp ≤ (b - dnm) / b * 10000) :
    dnm ≤ b * (1 - bp / 10000) := by
  rw [div_mul_eq_mul_div, le_div_iff hb] at h
  have h2 : bp * b / 10000 ≤ b - dnm := by
    rw [div_le_iff (by norm_num : (0:ℚ) < 10000)]; linarith
  have h3 : b * (1 - bp / 10000) = b - bp * b / 10000 := by ring
  linarith

lemma drop_head_ts_le (ticks : List TickRow) (i : Nat) (hs : TsSorted ticks)
    (hi : i < ticks.length) :
    ∀ t ∈ ticks.drop i, ticks[i].ts ≤ t.ts := by
  have hdrop : ticks.drop i = ticks[i] :: ticks.drop (i + 1) :=
    List.drop_eq_getElem_cons hi
  have hdropSorted : (ticks.drop i).Pairwise (fun a b => a.ts ≤ b.ts) :=
    List.Pairwise.sublist (List.drop_sublist i ticks) hs
  rw [hdrop] at hdropSorted ⊢
  rw [List.pairwise_cons] at hdropSorted
  intro t ht
  rcases List.mem_cons.mp ht with h | h
  · rw [h]
  · exact hdropSorted.1 t h

lemma specCandidate_wellformed (ticks : List TickRow) (w bp vm : ℚ) (i : Nat)
    (hs : TsSorted ticks) (hw : 0 ≤ w) (hi : i < ticks.length) :
    ∀ ev, specCandidate ticks w bp vm i = some ev →
      ev.ts_start ≤ ev.ts_end ∧ (ev.direction = 1 ∨ ev.direction = -1) := by
  intro ev hev
  have hbase : ticks.getD i default = ticks[i] := List.getD_eq_getElem ticks default hi
  have hwin_ne :
      (ticks.drop i).filter
          (fun t => decide (t.ts - (ticks.getD i default).ts ≤ w)) ≠ [] := by
    rw [List.drop_eq_getElem_cons hi, List.filter_cons,
      if_pos (by rw [hbase]; simp only [sub_self, decide_eq_true_eq]; exact hw)]
    simp
  have hts : (ticks.getD i default).ts ≤
      (((ticks.drop i).filter
        (fun t => decide (t.ts - (ticks.getD i default).ts ≤ w))).getLastD default).ts := by
    have hx := drop_head_ts_le ticks i hs hi _
      (List.mem_of_mem_filter (getLastD_mem default _ hwin_ne))
    rw [← hbase] at hx
    exact hx
  simp only [specCandidate] at hev
  split_ifs at hev with h1 h2
  · cases hev
    exact ⟨hts, Or.inl rfl⟩
  · cases hev
    exact ⟨hts, Or.inr rfl⟩

/-- C1: on a tick sequence sorted by non-decreasing timestamp and a
non-negative window, the dense sweep detector coincides index-by-index with
the §4.1 spec description (`specCandidate`: the scanned window is exactly
the forward ticks with `ts[j] − ts[i] ≤ window_sec`, a tick priced exactly
at the base price is counted into both `up_vol` and `dn_vol`, and at most
one event is emitted per index — an Up event spanning
`[base_time, ts[j-1]]` with `price_end = up_max`, `volume_total = up_vol`
when `up_bp ≥ price_threshold_bp` and `up_vol ≥ volume_min`, otherwise a
Down event symmetrically, Up preferred); and on the §8 three-tick scenario
it emits exactly one Up event with `price_start = 100`,
`price_end = 101.6`, `volume_total = 6`. -/
theorem detect_sweeps_spec_and_scenario :
    (∀ (ticks : List TickRow) (window_sec price_bp_thresh vol_min : ℚ),
      TsSorted ticks → 0 ≤ window_sec →
      detect_sweeps_py ticks window_sec price_bp_thresh vol_min =
        (List.range ticks.length).filterMap
          (specCandidate ticks window_sec price_bp_thresh vol_min)) ∧
    detect_sweeps_py
        [⟨0, 100, 1, 1⟩, ⟨1/20, 203/2, 3, 1⟩, ⟨1/10, 508/5, 2, 1⟩]
        (1/5) 100 4 =
      [⟨0, 1/10, 1, 100, 508/5, 6⟩] :=
  ⟨fun ticks w bp vm hs hw => detect_eq_filterMap_spec ticks w bp vm hs hw,
   by norm_num [detect_sweeps_py, detectLoop, detectAt, sweepScan, pyPrev]⟩

/-- C4, amended: the well-formedness `ts_start ≤ ts_end` additionally needs
`window_sec ≥ 0` (the counterexample below shows that with a negative window
and non-positive thresholds the empty scan emits an event whose `ts_end` is
`ticks[j-1]` with `j = i`, a tick before the start).  Under sorted input and
`window_sec ≥ 0`, every detector event satisfies `ts_start ≤ ts_end` and
`direction ∈ {+1, -1}`; and the streaming collection pipeline discards
`direction = 0` events, so only `direction ∈ {+1, -1}` events reach its
result set. -/
theorem detect_events_wellformed :
    ∀ (ticks : List TickRow) (window_sec price_bp_thresh vol_min : ℚ),
    TsSorted ticks → 0 ≤ window_sec →
    (∀ ev ∈ detect_sweeps_py ticks window_sec price_bp_thresh vol_min,
      ev.ts_start ≤ ev.ts_end ∧ (ev.direction = 1 ∨ ev.direction = -1)) ∧
    (∀ outs : List (Option SweepRow),
      (∀ o ∈ outs, ∀ e, o = some e →
        e.direction = 1 ∨ e.direction = -1 ∨ e.direction = 0) →
      ∀ ev ∈ generate_sweeps_from_ticks outs,
        ev.direction ≠ 0 ∧ (ev.direction = 1 ∨ ev.direction = -1)) := by
  intro ticks w bp vm hs hw
  constructor
  · intro ev hev
    rw [detect_eq_filterMap_spec ticks w bp vm hs hw, List.mem_filterMap] at hev
    obtain ⟨i, hi, hat⟩ := hev
    exact specCandidate_wellformed ticks w bp vm i hs hw (List.mem_range.mp hi) ev hat
  · intro outs hdirs ev hev
    simp only [generate_sweeps_from_ticks, List.mem_filterMap] at hev
    obtain ⟨o, ho, heq⟩ := hev
    cases o with
    | none => simp at heq
    | some e =>
      by_cases hd : e.direction = 0
      · simp [hd] at heq
      · simp only [if_neg hd, Option.some.injEq] at heq
        subst heq
        refine ⟨hd, ?_⟩
        rcases hdirs (some e) ho e rfl with h | h | h
        · exact Or.inl h
        · exact Or.inr h
        · exact absurd h hd

/-- C4 counterexample: on sorted two-tick input with `window_sec = -1`,
`price_bp_thresh = 0`, `vol_min = 0`, the detector emits (at start index 1)
the event `⟨ts_start = 1, ts_end = 0, …⟩`, violating `ts_start ≤ ts_end`. -/
theorem detect_events_wellformed_cex :
    TsSorted [⟨0, 100, 1, 1⟩, ⟨1, 100, 1, 1⟩] ∧
    (⟨1, 0, 1, 100, 100, 0⟩ : PySweep) ∈
      detect_sweeps_py [⟨0, 100, 1, 1⟩, ⟨1, 100, 1, 1⟩] (-1) 0 0 ∧
    ¬((1 : ℚ) ≤ (0 : ℚ)) := by
  refine ⟨?_, ?_, by norm_num⟩
  · rw [TsSorted]
    norm_num
  · norm_num [detect_sweeps_py, detectLoop, detectAt, sweepScan, pyPrev]

/-- Witness for the amended C4 at a concrete sorted input with a
non-negative window. -/
theorem detect_events_wellformed_witness :
    (∀ ev ∈ detect_sweeps_py [⟨0, 100, 6, 1⟩] 1 50 4,
      ev.ts_start ≤ ev.ts_end ∧ (ev.direction = 1 ∨ ev.direction = -1)) ∧
    (∀ outs : List (Option SweepRow),
      (∀ o ∈ outs, ∀ e, o = some e →
        e.direction = 1 ∨ e.direction = -1 ∨ e.direction = 0) →
      ∀ ev ∈ generate_sweeps_from_ticks outs,
        ev.direction ≠ 0 ∧ (ev.direction = 1 ∨ ev.direction = -1)) :=
  detect_events_wellformed [⟨0, 100, 6, 1⟩] 1 50 4
    (by rw [TsSorted]; simp) (by norm_num)

/-- C10: every event of the dense detector (positive prices, sorted ticks,
non-negative window) satisfies `volume_total ≥ vol_min`; an Up event
satisfies `price_end ≥ price_start·(1 + price_bp_thresh/10000)` and a Down
event `price_end ≤ price_start·(1 − price_bp_thresh/10000)`. -/
theorem detect_sweeps_threshold_bounds :
    ∀ (ticks : List TickRow) (window_sec price_bp_thresh vol_min : ℚ),
    TsSorted ticks → 0 ≤ window_sec → (∀ t ∈ ticks, 0 < t.price) →
    ∀ ev ∈ detect_sweeps_py ticks window_sec price_bp_thresh vol_min,
      vol_min ≤ ev.volume_total ∧
      (ev.direction = 1 →
        ev.price_start * (1 + price_bp_thresh / 10000) ≤ ev.price_end) ∧
      (ev.direction = -1 →
        ev.price_end ≤ ev.price_start * (1 - price_bp_thresh / 10000)) := by
  intro ticks w bp vm hs hw hp ev hev
  rw [detect_eq_filterMap, List.mem_filterMap] at hev
  obtain ⟨i, hi, hat⟩ := hev
  rw [List.mem_range] at hi
  have hbase : ticks.getD i default = ticks[i] := List.getD_eq_getElem ticks default hi
  have hpos : 0 < (ticks.getD i default).price := by
    rw [hbase]; exact hp _ (List.getElem_mem hi)
  simp only [detectAt] at hat
  rcases hsc : sweepScan (ticks.getD i default).price (ticks.getD i default).ts w i
      (ticks.drop i) (ticks.getD i default).price (ticks.getD i default).price 0 0 with
    ⟨j, um, dm, uv, dv⟩
  rw [hsc] at hat
  simp only [] at hat
  split_ifs at hat with h1 h2
  · cases hat
    refine ⟨h1.2, fun _ => ?_, fun hdir => ?_⟩
    · exact up_bp_bound hpos h1.1
    · exact absurd hdir (by norm_num)
  · cases hat
    refine ⟨h2.2, fun hdir => ?_, fun _ => ?_⟩
    · exact absurd hdir (by norm_num)
    · exact dn_bp_bound hpos h2.1

/-- Witness for C10: the §8 scenario event satisfies the bounds. -/
theorem detect_sweeps_threshold_bounds_witness :
    4 ≤ (⟨0, 1/10, 1, 100, 508/5, 6⟩ : PySweep).volume_total ∧
    ((⟨0, 1/10, 1, 100, 508/5, 6⟩ : PySweep).direction = 1 →
      (⟨0, 1/10, 1, 100, 508/5, 6⟩ : PySweep).price_start * (1 + 100 / 10000) ≤
        (⟨0, 1/10, 1, 100, 508/5, 6⟩ : PySweep).price_end) ∧
    ((⟨0, 1/10, 1, 100, 508/5, 6⟩ : PySweep).direction = -1 →
      (⟨0, 1/10, 1, 100, 508/5, 6⟩ : PySweep).price_end ≤
        (⟨0, 1/10, 1, 100, 508/5, 6⟩ : PySweep).price_start * (1 - 100 / 10000)) :=
  detect_sweeps_threshold_bounds
    [⟨0, 100, 1, 1⟩, ⟨1/20, 203/2, 3, 1⟩, ⟨1/10, 508/5, 2, 1⟩] (1/5) 100 4
    (by rw [TsSorted]; norm_num)
    (by norm_num)
    (by intro t ht; fin_cases ht <;> norm_num)
    ⟨0, 1/10, 1, 100, 508/5, 6⟩
    (by norm_num [detect_sweeps_py, detectLoop, detectAt, sweepScan, pyPrev])

/-! ## Evaluator lemmas -/

lemma getLastD_append_ne {α : Type} (d : α) (l l2 : List α) (h : l2 ≠ []) :
    (l ++ l2).getLastD d = l2.getLastD d := by
  rw [List.getLastD_eq_getLast?, List.getLastD_eq_getLast?, List.getLast?_append]
  cases h2 : l2.getLast? with
  | none =>
    exact absurd (List.getLast?_eq_none_iff.mp h2) h
  | some x => rfl

lemma mem_take_imp {α : Type} (l : List α) (m : Nat) :
    ∀ t ∈ l.take m, ∃ k, k < m ∧ ∃ hk : k < l.length, l[k] = t := by
  intro t ht
  rw [List.mem_iff_getElem] at ht
  obtain ⟨k, hk, hget⟩ := ht
  have hk2 : k < m ∧ k < l.length := by
    have := hk
    rw [List.length_take] at this
    omega
  refine ⟨k, hk2.1, hk2.2, ?_⟩
  rw [← List.getElem_take l]
  exact hget

lemma getD_takeWhile_last {α : Type} (d : α) (p : α → Bool) (l : List α) (i : Nat)
    (hne : (l.drop i).takeWhile p ≠ []) :
    l.getD (i + ((l.drop i).takeWhile p).length - 1) d =
      ((l.drop i).takeWhile p).getLastD d := by
  have hpos : 0 < ((l.drop i).takeWhile p).length := List.length_pos.mpr hne
  rw [getLastD_eq_getD d _ hne,
    takeWhile_getD p d (l.drop i) (((l.drop i).takeWhile p).length - 1) (by omega),
    getD_drop d l i]
  congr 1
  omega

lemma sortedA_getD_mono (ticks : List TickRowA) (hs : TsSortedA ticks) :
    ∀ i j : Nat, i ≤ j → j < ticks.length →
    (ticks.getD i default).ts ≤ (ticks.getD j default).ts := by
  intro i j hij hj
  rcases Nat.lt_or_ge i j with h | h
  · rw [List.getD_eq_getElem ticks default (by omega), List.getD_eq_getElem ticks default hj]
    exact (List.pairwise_iff_getElem.mp hs) i j (by omega) hj h
  · have : i = j := by omega
    rw [this]

lemma drop_head_ts_leA (ticks : List TickRowA) (i : Nat) (hs : TsSortedA ticks)
    (hi : i < ticks.length) :
    ∀ t ∈ ticks.drop i, ticks[i].ts ≤ t.ts := by
  have hdrop : ticks.drop i = ticks[i] :: ticks.drop (i + 1) :=
    List.drop_eq_getElem_cons hi
  have hdropSorted : (ticks.drop i).Pairwise (fun a b => a.ts ≤ b.ts) :=
    List.Pairwise.sublist (List.drop_sublist i ticks) hs
  rw [hdrop] at hdropSorted ⊢
  rw [List.pairwise_cons] at hdropSorted
  intro t ht
  rcases List.mem_cons.mp ht with h | h
  · rw [h]
  · exact hdropSorted.1 t h

lemma firstIdxFrom_spec (ticks : List TickRowA) (t0 : ℚ) :
    ∀ (rest : List TickRowA) (i : Nat), rest = ticks.drop i →
    (∀ k, k < i → (ticks.getD k default).ts < t0) →
    (∀ i0, (firstIdxFrom t0 i rest = some i0 ↔
      (i0 < ticks.length ∧ t0 ≤ (ticks.getD i0 default).ts ∧
        ∀ k, k < i0 → (ticks.getD k default).ts < t0))) ∧
    (firstIdxFrom t0 i rest = none ↔
      ∀ k, k < ticks.length → (ticks.getD k default).ts < t0) := by
  intro rest
  induction rest with
  | nil =>
    intro i hrest hinv
    have hlen : ticks.length ≤ i := by
      have h := congrArg List.length hrest
      rw [List.length_drop] at h
      simp at h
      omega
    constructor
    · intro i0
      constructor
      · intro h; exact absurd h (by simp [firstIdxFrom])
      · rintro ⟨h1, h2, _⟩
        exact absurd h2 (not_le.mpr (hinv i0 (by omega)))
    · constructor
      · intro _ k hk; exact hinv k (by omega)
      · intro _; rfl
  | cons x rest ih =>
    intro i hrest hinv
    have hi : i < ticks.length := by
      by_contra hge
      rw [List.drop_eq_nil_of_le (by omega)] at hrest
      exact absurd hrest (by simp)
    have hdrop : ticks.drop i = ticks[i] :: ticks.drop (i + 1) :=
      List.drop_eq_getElem_cons hi
    rw [hdrop] at hrest
    injection hrest with hx hr
    have hgdi : ticks.getD i default = ticks[i] := List.getD_eq_getElem ticks default hi
    by_cases ht : t0 ≤ x.ts
    · have hfi : firstIdxFrom t0 i (x :: rest) = some i := by
        simp [firstIdxFrom, ht]
      constructor
      · intro i0
        rw [hfi]
        constructor
        · intro h
          injection h with h
          subst h
          refine ⟨hi, ?_, hinv⟩
          rw [hgdi, ← hx]; exact ht
        · rintro ⟨h1, h2, h3⟩
          by_cases hii : i0 = i
          · rw [hii]
          · rcases Nat.lt_or_ge i0 i with hlt | hgt
            · exact absurd h2 (not_le.mpr (hinv i0 hlt))
            · have : (ticks.getD i default).ts < t0 := h3 i (by omega)
              rw [hgdi, ← hx] at this
              exact absurd ht (not_le.mpr this)
      · rw [hfi]
        constructor
        · intro h; exact absurd h (by simp)
        · intro h
          have := h i hi
          rw [hgdi, ← hx] at this
          exact absurd ht (not_le.mpr this)
    · have hfi : firstIdxFrom t0 i (x :: rest) = firstIdxFrom t0 (i + 1) rest := by
        simp [firstIdxFrom, ht]
      have hinv2 : ∀ k, k < i + 1 → (ticks.getD k default).ts < t0 := by
        intro k hk
        rcases Nat.lt_or_ge k i with h | h
        · exact hinv k h
        · have : k = i := by omega
          rw [this, hgdi, ← hx]
          exact lt_of_not_ge ht
      rw [hfi]
      exact ih (i + 1) hr hinv2

lemma advanceIdx_eq_match (ticks : List TickRowA) (t0 : ℚ) :
    ∀ (rest : List TickRowA) (i : Nat), rest = ticks.drop i → i ≤ ticks.length →
    advanceIdx t0 i rest =
      (match firstIdxFrom t0 i rest with
       | some k => k
       | none => ticks.length) := by
  intro rest
  induction rest with
  | nil =>
    intro i hrest hle
    have hlen : ticks.length ≤ i := by
      have h := congrArg List.length hrest
      rw [List.length_drop] at h
      simp at h
      omega
    have : i = ticks.length := by omega
    simp [advanceIdx, firstIdxFrom, this]
  | cons x rest ih =>
    intro i hrest hle
    have hi : i < ticks.length := by
      by_contra hge
      rw [List.drop_eq_nil_of_le (by omega)] at hrest
      exact absurd hrest (by simp)
    have hdrop : ticks.drop i = ticks[i] :: ticks.drop (i + 1) :=
      List.drop_eq_getElem_cons hi
    rw [hdrop] at hrest
    injection hrest with hx hr
    by_cases ht : x.ts < t0
    · have h1 : advanceIdx t0 i (x :: rest) = advanceIdx t0 (i + 1) rest := by
        simp [advanceIdx, ht]
      have h2 : firstIdxFrom t0 i (x :: rest) = firstIdxFrom t0 (i + 1) rest := by
        simp [firstIdxFrom, not_le.mpr ht]
      rw [h1, h2]
      exact ih (i + 1) hr (by omega)
    · have h1 : advanceIdx t0 i (x :: rest) = i := by
        simp [advanceIdx, ht]
      have h2 : firstIdxFrom t0 i (x :: rest) = some i := by
        simp [firstIdxFrom, not_lt.mp ht]
      rw [h1, h2]

lemma firstIdxFrom_shift (ticks : List TickRowA) (t0 : ℚ) (i : Nat)
    (hinv : ∀ k, k < i → (ticks.getD k default).ts < t0) :
    firstIdxFrom t0 i (ticks.drop i) = firstIdxFrom t0 0 ticks := by
  obtain ⟨hsome_i, hnone_i⟩ := firstIdxFrom_spec ticks t0 (ticks.drop i) i rfl hinv
  obtain ⟨hsome_0, hnone_0⟩ := firstIdxFrom_spec ticks t0 ticks 0 (by simp)
    (by intro k hk; omega)
  cases h : firstIdxFrom t0 0 ticks with
  | some i0 => exact (hsome_i i0).mpr ((hsome_0 i0).mp h)
  | none => exact hnone_i.mpr (hnone_0.mp h)

lemma horizonScan_eq (t1 : ℚ) :
    ∀ (rest : List TickRowA) (j : Nat) (mp np : ℚ),
    horizonScan t1 j rest mp np =
      (j + (rest.takeWhile (fun t => decide (t.ts ≤ t1))).length,
       (rest.takeWhile (fun t => decide (t.ts ≤ t1))).foldl
         (fun m t => if m < t.price then t.price else m) mp,
       (rest.takeWhile (fun t => decide (t.ts ≤ t1))).foldl
         (fun m t => if t.price < m then t.price else m) np) := by
  intro rest
  induction rest with
  | nil => intro j mp np; simp [horizonScan]
  | cons t rest ih =>
    intro j mp np
    by_cases h : t.ts ≤ t1
    · rw [show horizonScan t1 j (t :: rest) mp np =
          horizonScan t1 (j + 1) rest
            (if mp < t.price then t.price else mp)
            (if t.price < np then t.price else np) from by
        simp [horizonScan, h]]
      rw [ih]
      simp only [List.takeWhile_cons, decide_eq_true h, if_pos]
      refine Prod.ext (by simp; omega) (Prod.ext rfl rfl)
    · rw [show horizonScan t1 j (t :: rest) mp np = (j, mp, np) from by
        simp [horizonScan, h]]
      simp only [List.takeWhile_cons, decide_eq_false h]
      simp

lemma evalEventA_isSome_iff (ticks : List TickRowA) (horizon : ℚ) (ev : SweepRow)
    (hs : TsSortedA ticks) :
    (evalEventA ticks horizon ev).isSome ↔
      ∃ t ∈ ticks, ev.ts_end ≤ t.ts ∧ t.ts ≤ ev.ts_end + horizon := by
  obtain ⟨hsome, hnone⟩ := firstIdxFrom_spec ticks ev.ts_end ticks 0 (by simp)
    (by intro k hk; omega)
  cases h0 : firstIdxFrom ev.ts_end 0 ticks with
  | none =>
    have hall := hnone.mp h0
    simp only [evalEventA, h0]
    constructor
    · intro h; simp at h
    · rintro ⟨t, ht, h1, h2⟩
      rw [List.mem_iff_getElem] at ht
      obtain ⟨k, hk, hget⟩ := ht
      have hlt := hall k hk
      rw [List.getD_eq_getElem ticks default hk, hget] at hlt
      exact absurd h1 (not_le.mpr hlt)
  | some i0 =>
    obtain ⟨hi0, ht0, hmin⟩ := (hsome i0).mp h0
    have hdrop : ticks.drop i0 = ticks[i0] :: ticks.drop (i0 + 1) :=
      List.drop_eq_getElem_cons hi0
    have hgd : ticks.getD i0 default = ticks[i0] := List.getD_eq_getElem ticks default hi0
    by_cases hx : ticks[i0].ts ≤ ev.ts_end + horizon
    · have hlen : 0 < ((ticks.drop i0).takeWhile
          (fun t => decide (t.ts ≤ ev.ts_end + horizon))).length := by
        rw [hdrop, List.takeWhile_cons, if_pos (decide_eq_true hx)]
        simp
      constructor
      · intro _
        refine ⟨ticks[i0], List.getElem_mem hi0, ?_, hx⟩
        rw [hgd] at ht0; exact ht0
      · intro _
        simp only [evalEventA, h0, horizonScan_eq]
        rw [if_neg (by omega)]
        by_cases hd : ev.direction < 0 <;> simp [hd]
    · have hlen0 : ((ticks.drop i0).takeWhile
          (fun t => decide (t.ts ≤ ev.ts_end + horizon))).length = 0 := by
        rw [hdrop, List.takeWhile_cons, if_neg (by simpa using hx)]
        rfl
      constructor
      · intro h
        simp only [evalEventA, h0, horizonScan_eq, hlen0] at h
        simp at h
      · rintro ⟨t, ht, h1, h2⟩
        rw [List.mem_iff_getElem] at ht
        obtain ⟨k, hk, hget⟩ := ht
        have hki : i0 ≤ k := by
          by_contra hlt
          have hlt2 := hmin k (by omega)
          rw [List.getD_eq_getElem ticks default hk, hget] at hlt2
          exact absurd h1 (not_le.mpr hlt2)
        have hmono := sortedA_getD_mono ticks hs i0 k hki hk
        rw [hgd, List.getD_eq_getElem ticks default hk, hget] at hmono
        exact absurd (le_trans hmono h2) hx

/-- C2, amended: the two genuine skip conditions of the evaluator are "no
tick has `ts ≥ ts_end`" and, more generally, "no tick at all (including the
`price0` tick) falls within `[ts_end, ts_end + horizon]`"; equivalently, on
sorted ticks an event produces exactly one record if and only if some tick
lies in the window `[ts_end, ts_end + horizon]` (the code does NOT skip an
event whose window contains only the `price0` tick itself, as the
counterexample shows), and otherwise produces none. -/
theorem evaluator_skip_conditions :
    ∀ (ticks : List TickRowA) (sweeps : List SweepRow) (horizon : ℚ),
    TsSortedA ticks →
    compute_ret_mfe_mae_analyze ticks sweeps horizon =
      sweeps.filterMap (evalEventA ticks horizon) ∧
    ∀ ev ∈ sweeps,
      ((evalEventA ticks horizon ev).isSome ↔
        ∃ t ∈ ticks, ev.ts_end ≤ t.ts ∧ t.ts ≤ ev.ts_end + horizon) := by
  intro ticks sweeps horizon hs
  exact ⟨rfl, fun ev _ => evalEventA_isSome_iff ticks horizon ev hs⟩

/-- C2 counterexample: a single tick exactly at the event's end time.  No
tick beyond the `price0` tick itself falls within
`[ts_end, ts_end + horizon]` (the window holds exactly the `price0` tick),
so the claim says the event is skipped — but the evaluator produces exactly
one record for it. -/
theorem evaluator_skip_conditions_cex :
    compute_ret_mfe_mae_analyze [⟨10, 100⟩] [⟨9, 10, 1, 100, 100, 5⟩] 30 =
      [⟨1, 0, 0, 0, 5⟩] ∧
    ([⟨10, 100⟩] : List TickRowA).filter
        (fun t => decide ((10 : ℚ) ≤ t.ts ∧ t.ts ≤ 10 + 30)) = [⟨10, 100⟩] := by
  constructor
  · norm_num [compute_ret_mfe_mae_analyze, List.filterMap_cons, evalEventA,
      firstIdxFrom, horizonScan]
  · norm_num

/-- Witness for the amended C2 at the counterexample input. -/
theorem evaluator_skip_conditions_witness :
    ((evalEventA [⟨10, 100⟩] 30 ⟨9, 10, 1, 100, 100, 5⟩).isSome ↔
      ∃ t ∈ ([⟨10, 100⟩] : List TickRowA),
        (⟨9, 10, 1, 100, 100, 5⟩ : SweepRow).ts_end ≤ t.ts ∧
          t.ts ≤ (⟨9, 10, 1, 100, 100, 5⟩ : SweepRow).ts_end + 30) :=
  (evaluator_skip_conditions [⟨10, 100⟩] [⟨9, 10, 1, 100, 100, 5⟩] 30
    (by rw [TsSortedA]; simp)).2 ⟨9, 10, 1, 100, 100, 5⟩ (by simp)

lemma evalEventA_eq_specOutcome (ticks : List TickRowA) (horizon : ℚ) (ev : SweepRow)
    (hs : TsSortedA ticks) (hh : 0 ≤ horizon) :
    evalEventA ticks horizon ev = specOutcome ticks horizon ev := by
  obtain ⟨hsome, hnone⟩ := firstIdxFrom_spec ticks ev.ts_end ticks 0 (by simp)
    (by intro k hk; omega)
  cases h0 : firstIdxFrom ev.ts_end 0 ticks with
  | none =>
    have hall := hnone.mp h0
    have hwin : horizonWindow ticks ev.ts_end (ev.ts_end + horizon) = [] := by
      rw [horizonWindow, List.filter_eq_nil_iff]
      intro t ht
      rw [List.mem_iff_getElem] at ht
      obtain ⟨k, hk, hget⟩ := ht
      have hlt := hall k hk
      rw [List.getD_eq_getElem ticks default hk, hget] at hlt
      simp only [decide_eq_true_eq, not_and]
      intro h1
      exact absurd h1 (not_le.mpr hlt)
    simp only [evalEventA, h0, specOutcome, hwin]
  | some i0 =>
    obtain ⟨hi0, ht0, hmin⟩ := (hsome i0).mp h0
    have hgd : ticks.getD i0 default = ticks[i0] := List.getD_eq_getElem ticks default hi0
    have hdrop : ticks.drop i0 = ticks[i0] :: ticks.drop (i0 + 1) :=
      List.drop_eq_getElem_cons hi0
    have hge : ∀ t ∈ ticks.drop i0, ev.ts_end ≤ t.ts := by
      intro t ht
      have hmono := drop_head_ts_leA ticks i0 hs hi0 t ht
      rw [hgd] at ht0
      exact le_trans ht0 hmono
    have hwin : horizonWindow ticks ev.ts_end (ev.ts_end + horizon) =
        (ticks.drop i0).filter (fun t => decide (t.ts ≤ ev.ts_end + horizon)) := by
      rw [horizonWindow]
      conv_lhs => rw [← List.take_append_drop i0 ticks]
      rw [List.filter_append]
      have h1 : (ticks.take i0).filter
          (fun t => decide (ev.ts_end ≤ t.ts ∧ t.ts ≤ ev.ts_end + horizon)) = [] := by
        rw [List.filter_eq_nil_iff]
        intro t ht
        obtain ⟨k, hk, hkl, hget⟩ := mem_take_imp ticks i0 t ht
        have hlt := hmin k hk
        rw [List.getD_eq_getElem ticks default hkl, hget] at hlt
        simp only [decide_eq_true_eq, not_and]
        intro h1
        exact absurd h1 (not_le.mpr hlt)
      rw [h1, List.nil_append]
      refine List.filter_congr ?_
      intro t ht
      rw [decide_eq_decide]
      exact ⟨fun h => h.2, fun h2 => ⟨hge t ht, h2⟩⟩
    have hps : (ticks.drop i0).Pairwise (fun a b : TickRowA => a.ts ≤ b.ts) :=
      List.Pairwise.sublist (List.drop_sublist i0 ticks) hs
    have htwf : (ticks.drop i0).takeWhile (fun t => decide (t.ts ≤ ev.ts_end + horizon)) =
        (ticks.drop i0).filter (fun t => decide (t.ts ≤ ev.ts_end + horizon)) := by
      refine takeWhile_eq_filter_of_mono (fun t => t.ts) _ ?_ _ hps
      intro a b hab hb
      simp only [decide_eq_true_eq] at hb ⊢
      linarith
    by_cases hx : ticks[i0].ts ≤ ev.ts_end + horizon
    · have hwc : (ticks.drop i0).filter (fun t => decide (t.ts ≤ ev.ts_end + horizon)) =
          ticks[i0] ::
            (ticks.drop (i0 + 1)).filter (fun t => decide (t.ts ≤ ev.ts_end + horizon)) := by
        rw [hdrop, List.filter_cons, if_pos (decide_eq_true hx)]
      have hne : (ticks.drop i0).takeWhile
          (fun t => decide (t.ts ≤ ev.ts_end + horizon)) ≠ [] := by
        rw [htwf, hwc]; simp
      have hlenpos : 0 < ((ticks.drop i0).takeWhile
          (fun t => decide (t.ts ≤ ev.ts_end + horizon))).length :=
        List.length_pos.mpr hne
      have hfl : ticks.filter (fun t => decide (t.ts ≤ ev.ts_end + horizon)) =
          ticks.take i0 ++
            (ticks.drop i0).filter (fun t => decide (t.ts ≤ ev.ts_end + horizon)) := by
        conv_lhs => rw [← List.take_append_drop i0 ticks]
        rw [List.filter_append]
        congr 1
        rw [List.filter_eq_self]
        intro t ht
        obtain ⟨k, hk, hkl, hget⟩ := mem_take_imp ticks i0 t ht
        have hlt := hmin k hk
        rw [List.getD_eq_getElem ticks default hkl, hget] at hlt
        simp only [decide_eq_true_eq]
        linarith
      have hlast : (ticks.filter (fun t => decide (t.ts ≤ ev.ts_end + horizon))).getLastD
            default =
          ((ticks.drop i0).filter
            (fun t => decide (t.ts ≤ ev.ts_end + horizon))).getLastD default := by
        rw [hfl]
        exact getLastD_append_ne default _ _ (by rw [hwc]; simp)
      have hidx : ticks.getD (i0 + ((ticks.drop i0).takeWhile
            (fun t => decide (t.ts ≤ ev.ts_end + horizon))).length - 1) default =
          ((ticks.drop i0).takeWhile
            (fun t => decide (t.ts ≤ ev.ts_end + horizon))).getLastD default :=
        getD_takeWhile_last default _ ticks i0 hne
      simp only [evalEventA, h0, horizonScan_eq]
      rw [if_neg (by omega), hidx]
      simp only [specOutcome, hwin, hwc]
      rw [htwf, ← hlast, hgd,
        foldl_if_max (fun t : TickRowA => t.price),
        foldl_if_min (fun t : TickRowA => t.price), hwc]
    · have hwe : (ticks.drop i0).filter
          (fun t => decide (t.ts ≤ ev.ts_end + horizon)) = [] := by
        rw [List.filter_eq_nil_iff]
        intro t ht
        have h1 := drop_head_ts_leA ticks i0 hs hi0 t ht
        simp only [decide_eq_true_eq]
        intro h2
        exact hx (le_trans h1 h2)
      have hlen0 : ((ticks.drop i0).takeWhile
          (fun t => decide (t.ts ≤ ev.ts_end + horizon))).length = 0 := by
        rw [htwf, hwe]; rfl
      simp only [evalEventA, h0, horizonScan_eq, hlen0, Nat.add_zero, if_pos,
        specOutcome, hwin, hwe]

/-- C3: on sorted ticks and a non-negative horizon, every record the
evaluator produces carries exactly the §4.3 formulas — `ret_h` from the last
tick with `ts ≤ ts_end + horizon`, and the min/max-based `mfe_h`/`mae_h`
formulas swapped between Down and Up events, with the extremes running over
the horizon-window ticks starting from `price0` (`evalEventA` coincides
with the spec-worded `specOutcome`); and the §8 evaluator scenario yields
`ret_h = -0.01`, `mfe_h = 0.02`, `mae_h = -0.01`. -/
theorem evaluator_formulas_and_scenario :
    (∀ (ticks : List TickRowA) (ev : SweepRow) (horizon : ℚ),
      TsSortedA ticks → 0 ≤ horizon →
      evalEventA ticks horizon ev = specOutcome ticks horizon ev) ∧
    compute_ret_mfe_mae_analyze [⟨10, 100⟩, ⟨20, 102⟩, ⟨40, 99⟩]
        [⟨10, 10, 1, 100, 102, 5⟩] 30 =
      [⟨1, -1/100, 1/50, -1/100, 5⟩] := by
  constructor
  · intro ticks ev horizon hs hh
    exact evalEventA_eq_specOutcome ticks horizon ev hs hh
  · norm_num [compute_ret_mfe_mae_analyze, List.filterMap_cons, evalEventA,
      firstIdxFrom, horizonScan]

lemma offlineLoop_eq_filterMap (ticks : List TickRowA) (horizon : ℚ)
    (hs : TsSortedA ticks) :
    ∀ (sweeps : List SweepRow) (idx : Nat) (low : ℚ),
    idx ≤ ticks.length →
    (∀ k, k < idx → (ticks.getD k default).ts < low) →
    (∀ ev ∈ sweeps, low ≤ ev.ts_end) →
    TsEndSorted sweeps →
    (sweeps.filterMap (evalEventA ticks horizon)).map outcomeKeyA =
      (offlineLoop ticks horizon sweeps idx).map outcomeKeyP := by
  intro sweeps
  induction sweeps with
  | nil => intro idx low _ _ _ _; simp [offlineLoop]
  | cons ev rest ih =>
    intro idx low hidx hinv hlow hsorted
    have hsorted' := hsorted
    rw [TsEndSorted, List.pairwise_cons] at hsorted'
    obtain ⟨hhead, hrest⟩ := hsorted'
    have hinv0 : ∀ k, k < idx → (ticks.getD k default).ts < ev.ts_end :=
      fun k hk => lt_of_lt_of_le (hinv k hk) (hlow ev (List.mem_cons_self ev rest))
    have hadv : advanceIdx ev.ts_end idx (ticks.drop idx) =
        (match firstIdxFrom ev.ts_end 0 ticks with
         | some k => k
         | none => ticks.length) := by
      rw [advanceIdx_eq_match ticks ev.ts_end (ticks.drop idx) idx rfl hidx,
        firstIdxFrom_shift ticks ev.ts_end idx hinv0]
    obtain ⟨hsome, hnone⟩ := firstIdxFrom_spec ticks ev.ts_end ticks 0 (by simp)
      (by intro k hk; omega)
    cases h0 : firstIdxFrom ev.ts_end 0 ticks with
    | none =>
      rw [h0] at hadv
      have hall := hnone.mp h0
      have hoff : offlineLoop ticks horizon (ev :: rest) idx = [] := by
        simp only [offlineLoop, hadv]
        rw [if_neg (by omega)]
      have hana : ∀ e ∈ ev :: rest, evalEventA ticks horizon e = none := by
        intro e he
        have hte : ev.ts_end ≤ e.ts_end := by
          rcases List.mem_cons.mp he with h | h
          · rw [h]
          · exact hhead e h
        have hnone_e : firstIdxFrom e.ts_end 0 ticks = none := by
          obtain ⟨_, hnone2⟩ := firstIdxFrom_spec ticks e.ts_end ticks 0 (by simp)
            (by intro k hk; omega)
          exact hnone2.mpr (fun k hk => lt_of_lt_of_le (hall k hk) hte)
        simp only [evalEventA, hnone_e]
      rw [hoff, List.filterMap_eq_nil_iff.mpr hana]
      rfl
    | some i0 =>
      rw [h0] at hadv
      obtain ⟨hi0, ht0, hmin⟩ := (hsome i0).mp h0
      rcases hsc : horizonScan (ev.ts_end + horizon) i0 (ticks.drop i0)
          ((ticks.getD i0 default).price) ((ticks.getD i0 default).price) with ⟨j, mp, np⟩
      have hih := ih i0 ev.ts_end (by omega) hmin hhead hrest
      simp only [List.filterMap_cons, evalEventA, h0, hsc]
      simp only [offlineLoop, hadv, hsc]
      rw [if_pos hi0]
      by_cases hj : j = i0
      · rw [if_pos hj, if_pos hj]
        simpa using hih
      · rw [if_neg hj, if_neg hj]
        by_cases hd : ev.direction < 0
        · rw [if_pos hd, if_pos hd]
          simp only [List.map_cons, List.cons.injEq]
          exact ⟨by simp [outcomeKeyA, outcomeKeyP], hih⟩
        · rw [if_neg hd, if_neg hd]
          simp only [List.map_cons, List.cons.injEq]
          exact ⟨by simp [outcomeKeyA, outcomeKeyP], hih⟩

/-- C9: on the same tick list sorted by timestamp and the same event list
sorted by `ts_end`, with the same 30-second horizon, the per-event
full-scan evaluator of `analyze_sweep.py` and the shared monotonic-pointer
evaluator of `offline_analyze.py` produce identical sequences of
`(direction, ret, mfe, mae)` tuples. -/
theorem analyze_offline_equivalence :
    ∀ (ticks : List TickRowA) (sweeps : List SweepRow),
    TsSortedA ticks → TsEndSorted sweeps →
    (compute_ret_mfe_mae_analyze ticks sweeps T_HORIZON_OFFLINE).map outcomeKeyA =
      (compute_ret_mfe_mae_offline ticks sweeps).map outcomeKeyP := by
  intro ticks sweeps hs hsor
  rw [compute_ret_mfe_mae_offline, compute_ret_mfe_mae_analyze]
  cases sweeps with
  | nil => simp [offlineLoop]
  | cons ev rest =>
    refine offlineLoop_eq_filterMap ticks T_HORIZON_OFFLINE hs (ev :: rest) 0 ev.ts_end
      (by omega) (by intro k hk; omega) ?_ hsor
    intro e he
    rcases List.mem_cons.mp he with h | h
    · rw [h]
    · rw [TsEndSorted, List.pairwise_cons] at hsor
      exact hsor.1 e h

/-- Witness for C9 at a concrete sorted input. -/
theorem analyze_offline_equivalence_witness :
    (compute_ret_mfe_mae_analyze [⟨10, 100⟩, ⟨20, 102⟩, ⟨40, 99⟩]
        [⟨10, 10, 1, 100, 102, 5⟩] T_HORIZON_OFFLINE).map outcomeKeyA =
      (compute_ret_mfe_mae_offline [⟨10, 100⟩, ⟨20, 102⟩, ⟨40, 99⟩]
        [⟨10, 10, 1, 100, 102, 5⟩]).map outcomeKeyP :=
  analyze_offline_equivalence [⟨10, 100⟩, ⟨20, 102⟩, ⟨40, 99⟩]
    [⟨10, 10, 1, 100, 102, 5⟩]
    (by rw [TsSortedA]; norm_num) (by rw [TsEndSorted]; simp)

/-! ## AggFlowTracker lemmas (C5) -/

lemma dropWhile_lt_retained (c : ℚ) :
    ∀ (l : List TradeObs), l.Pairwise (fun a b => a.ts ≤ b.ts) →
    ∀ t ∈ l.dropWhile (fun t => decide (t.ts < c)), c ≤ t.ts := by
  intro l
  induction l with
  | nil => intro _ t ht; simp [List.dropWhile] at ht
  | cons x l ih =>
    intro hl t ht
    rw [List.pairwise_cons] at hl
    rw [List.dropWhile_cons] at ht
    by_cases hx : x.ts < c
    · rw [if_pos (by simpa using hx)] at ht
      exact ih hl.2 t ht
    · rw [if_neg (by simpa using hx)] at ht
      rcases List.mem_cons.mp ht with h | h
      · rw [h]; exact not_lt.mp hx
      · exact le_trans (not_lt.mp hx) (hl.1 t h)

lemma dropWhile_lt_retained_append (c : ℚ) (s : TradeObs) (hcs : c ≤ s.ts) :
    ∀ (l : List TradeObs), l.Pairwise (fun a b => a.ts ≤ b.ts) →
    ∀ t ∈ (l ++ [s]).dropWhile (fun t => decide (t.ts < c)), c ≤ t.ts := by
  intro l
  induction l with
  | nil =>
    intro _ t ht
    rw [List.nil_append, List.dropWhile_cons] at ht
    by_cases hx : s.ts < c
    · rw [if_pos (by simpa using hx)] at ht
      simp [List.dropWhile] at ht
    · rw [if_neg (by simpa using hx)] at ht
      rcases List.mem_cons.mp ht with h | h
      · rw [h]; exact hcs
      · simp at h
  | cons x l ih =>
    intro hl t ht
    rw [List.pairwise_cons] at hl
    rw [List.cons_append, List.dropWhile_cons] at ht
    by_cases hx : x.ts < c
    · rw [if_pos (by simpa using hx)] at ht
      exact ih hl.2 t ht
    · rw [if_neg (by simpa using hx)] at ht
      rcases List.mem_cons.mp ht with h | h
      · rw [h]; exact not_lt.mp hx
      · rcases List.mem_append.mp h with h2 | h2
        · exact le_trans (not_lt.mp hx) (hl.1 t h2)
        · rw [List.mem_singleton.mp h2]; exact hcs

lemma windowStats_sum_nonneg (trades : List TradeObs) (ts_now w : ℚ)
    (hv : ∀ t ∈ trades, 0 ≤ t.vol) :
    0 ≤ (windowStats trades ts_now w).buy ∧ 0 ≤ (windowStats trades ts_now w).sell := by
  constructor <;>
  · refine List.sum_nonneg ?_
    intro x hx
    rw [List.mem_map] at hx
    obtain ⟨t, ht, hxt⟩ := hx
    rw [← hxt]
    exact hv t (List.mem_of_mem_filter ht)

lemma windowStats_fields (trades : List TradeObs) (ts_now w : ℚ) :
    (windowStats trades ts_now w).total =
      (windowStats trades ts_now w).buy + (windowStats trades ts_now w).sell ∧
    (windowStats trades ts_now w).buy_share =
      (if 0 < (windowStats trades ts_now w).buy + (windowStats trades ts_now w).sell
       then (windowStats trades ts_now w).buy /
        ((windowStats trades ts_now w).buy + (windowStats trades ts_now w).sell)
       else 0) :=
  ⟨rfl, rfl⟩

lemma windowStats_share_bounds (trades : List TradeObs) (ts_now w : ℚ)
    (hv : ∀ t ∈ trades, 0 ≤ t.vol) :
    0 ≤ (windowStats trades ts_now w).buy_share ∧
      (windowStats trades ts_now w).buy_share ≤ 1 := by
  obtain ⟨hb, hsell⟩ := windowStats_sum_nonneg trades ts_now w hv
  rw [windowStats] at hb hsell ⊢
  simp only [] at hb hsell ⊢
  constructor
  · split_ifs with hpos
    · exact div_nonneg hb hpos.le
    · exact le_refl 0
  · split_ifs with hpos
    · rw [div_le_one hpos]
      linarith
    · norm_num

/-- C5, amended: the claim's invariant additionally needs the retained deque
to be in non-decreasing timestamp order (as produced by monotone calls) —
`_prune` only pops from the front, so with out-of-order timestamps a stale
observation can survive behind a fresh front one (see the counterexample).
With a sorted deque, after `add_trade(ts, …)` or `summary(ts_now)` every
retained observation has age at most the largest configured window; and each
window's stats satisfy `total = buy + sell`,
`buy_share = buy/(buy+sell)` when `buy+sell > 0` and `0` otherwise, hence
`buy_share ∈ [0, 1]` for non-negative volumes. -/
theorem aggflow_prune_and_share :
    ∀ (windows : List ℚ) (trades : List TradeObs) (ts ts_now : ℚ)
      (side : String) (vol : ℚ),
    windows ≠ [] → 0 ≤ lastWindow windows →
    trades.Pairwise (fun a b => a.ts ≤ b.ts) →
    (∀ t ∈ trades, 0 ≤ t.vol) →
    (∀ t ∈ trades, t.ts ≤ ts_now) →
    (∀ t ∈ add_trade windows trades ts side vol, ts - t.ts ≤ lastWindow windows) ∧
    (∀ t ∈ (agg_summary windows trades ts_now).1,
      ts_now - t.ts ≤ lastWindow windows) ∧
    (∀ w fs, (w, fs) ∈ (agg_summary windows trades ts_now).2 →
      fs.total = fs.buy + fs.sell ∧
      fs.buy_share =
        (if 0 < fs.buy + fs.sell then fs.buy / (fs.buy + fs.sell) else 0) ∧
      0 ≤ fs.buy_share ∧ fs.buy_share ≤ 1) := by
  intro windows trades ts ts_now side vol _ hW hsort hvol _
  refine ⟨?_, ?_, ?_⟩
  · intro t ht
    rw [add_trade, agg_prune] at ht
    have := dropWhile_lt_retained_append (ts - lastWindow windows) _
      (by simp only []; linarith) trades hsort t ht
    linarith
  · intro t ht
    rw [agg_summary] at ht
    simp only [] at ht
    rw [agg_prune] at ht
    have := dropWhile_lt_retained (ts_now - lastWindow windows) trades hsort t ht
    linarith
  · intro w fs hmem
    rw [agg_summary] at hmem
    simp only [List.mem_map] at hmem
    obtain ⟨w2, hw2, heq⟩ := hmem
    rw [Prod.ext_iff] at heq
    obtain ⟨hww, hfs⟩ := heq
    simp only [] at hww hfs
    subst hww
    subst hfs
    have hvol2 : ∀ t ∈ agg_prune windows trades ts_now, 0 ≤ t.vol := fun t ht =>
      hvol t ((List.dropWhile_sublist _).subset ht)
    exact ⟨(windowStats_fields _ _ _).1, (windowStats_fields _ _ _).2,
      (windowStats_share_bounds _ _ _ hvol2).1,
      (windowStats_share_bounds _ _ _ hvol2).2⟩

/-- C5 counterexample: with out-of-order `add_trade` calls (timestamps 5
then 1, largest window 2) a `summary` at time 6 — no earlier than every
retained observation — keeps the observation stamped 1, whose age 5 exceeds
the largest window. -/
theorem aggflow_prune_cex :
    ((agg_summary [2] (add_trade [2] (add_trade [2] [] 5 "B" 1) 1 "B" 1) 6).1).map
        (fun t => t.ts) = [5, 1] ∧
    (∀ t ∈ (agg_summary [2] (add_trade [2] (add_trade [2] [] 5 "B" 1) 1 "B" 1) 6).1,
      t.ts ≤ 6) ∧
    ¬((6 : ℚ) - 1 ≤ lastWindow [2]) := by
  refine ⟨?_, ?_, by norm_num [lastWindow]⟩ <;>
  · norm_num [agg_summary, add_trade, agg_prune, lastWindow, List.dropWhile_cons]

/-- Witness for the amended C5 at a concrete monotone call history. -/
theorem aggflow_prune_and_share_witness :
    (∀ t ∈ add_trade [2] [⟨3, 1, 1⟩] 4 "B" 1, (4 : ℚ) - t.ts ≤ lastWindow [2]) ∧
    (∀ t ∈ (agg_summary [2] [⟨3, 1, 1⟩] 4).1, (4 : ℚ) - t.ts ≤ lastWindow [2]) ∧
    (∀ w fs, (w, fs) ∈ (agg_summary [2] [⟨3, 1, 1⟩] 4).2 →
      fs.total = fs.buy + fs.sell ∧
      fs.buy_share =
        (if 0 < fs.buy + fs.sell then fs.buy / (fs.buy + fs.sell) else 0) ∧
      0 ≤ fs.buy_share ∧ fs.buy_share ≤ 1) :=
  aggflow_prune_and_share [2] [⟨3, 1, 1⟩] 4 4 "B" 1 (by simp)
    (by norm_num [lastWindow]) (by simp) (by norm_num) (by norm_num)

/-! ## Run-detection lemmas (C6) -/

lemma lastThree_append (l : List BiasSample) (smp : BiasSample)
    (h : 3 ≤ (l ++ [smp]).length) :
    ∃ a b, lastThree (l ++ [smp]) = [a, b, smp] := by
  have hl2 : 2 ≤ l.length := by
    rw [List.length_append, List.length_singleton] at h
    omega
  rw [lastThree]
  have hlen : (l ++ [smp]).length = l.length + 1 := by
    rw [List.length_append, List.length_singleton]
  rw [hlen, List.drop_append_of_le_length (by omega)]
  have hdl : (l.drop (l.length + 1 - 3)).length = 2 := by
    rw [List.length_drop]; omega
  obtain ⟨a, b, hab⟩ := List.length_eq_two.mp hdl
  exact ⟨a, b, by rw [hab]; rfl⟩

lemma pushBias_append (hist : List BiasSample) (smp : BiasSample) :
    ∃ l, pushBias hist smp = l ++ [smp] := by
  rw [pushBias]
  split_ifs
  · exact ⟨hist.tail, rfl⟩
  · exact ⟨hist, rfl⟩

lemma specRun_triplet_iff (l : List BiasSample) (smp : BiasSample) (d : Int)
    (hdir : smp.dir = d) (hdnz : d ≠ 0) (h3 : 3 ≤ (l ++ [smp]).length)
    (a b : BiasSample) (hrec : lastThree (l ++ [smp]) = [a, b, smp]) :
    specRun (l ++ [smp]) d ↔
      ((a.dir ≠ 0 ∧ b.dir = a.dir ∧ smp.dir = a.dir) ∧
        ((|a.net| ≤ |b.net| ∧ |b.net| ≤ |smp.net|) ∧
          (if 0 < a.dir then 7/10 ≤ smp.share else smp.share ≤ 3/10))) := by
  rw [specRun, hrec]
  have hlast : ([a, b, smp].getLastD default) = smp := rfl
  rw [hlast]
  constructor
  · rintro ⟨_, _, hdirs, hpw, hshare⟩
    have ha : a.dir = d := hdirs a (by simp)
    have hb : b.dir = d := hdirs b (by simp)
    have hab : a.dir ≠ 0 ∧ b.dir = a.dir ∧ smp.dir = a.dir := by
      rw [ha, hb, hdir]
      exact ⟨hdnz, rfl, rfl⟩
    rw [List.pairwise_cons] at hpw
    obtain ⟨h1a, hpw2⟩ := hpw
    rw [List.pairwise_cons] at hpw2
    obtain ⟨h2a, _⟩ := hpw2
    refine ⟨hab, ⟨h1a b (by simp), h2a smp (by simp)⟩, ?_⟩
    rw [ha]
    exact hshare
  · rintro ⟨⟨hnz, hba, hsa⟩, ⟨hm1, hm2⟩, hshare⟩
    have had : a.dir = d := by rw [← hsa, hdir]
    refine ⟨h3, hdnz, ?_, ?_, ?_⟩
    · intro r hr
      rcases List.mem_cons.mp hr with h | h
      · rw [h, had]
      · rcases List.mem_cons.mp h with h2 | h2
        · rw [h2, hba, had]
        · rw [List.mem_singleton.mp h2, hdir]
    · rw [List.pairwise_cons]
      refine ⟨?_, ?_⟩
      · intro x hx
        rcases List.mem_cons.mp hx with h | h
        · rw [h]; exact hm1
        · rw [List.mem_singleton.mp h]
          exact le_trans hm1 hm2
      · rw [List.pairwise_cons]
        refine ⟨?_, by simp⟩
        intro x hx
        rw [List.mem_singleton.mp hx]
        exact hm2
    · rw [← had]
      exact hshare

lemma detect_run_some_case (hist : List BiasSample) (ts_now : ℚ) (s : FlowStats)
    (d : Int) (h1 : ¬s.total ≤ 0) (hdz : d ≠ 0)
    (hd : (if 0 < s.net then (1 : Int) else if s.net < 0 then -1 else 0) = d)
    (hist2 : List BiasSample) (res : Option RunInfo) (r : RunInfo)
    (heq : detect_run hist ts_now (some s) = (hist2, res)) :
    res = some r ↔
      (specRun hist2 d ∧
        r = ⟨if 0 < d then "BUY" else "SELL", s.net, s.buy_share⟩) := by
  obtain ⟨l, hl⟩ := pushBias_append hist ⟨ts_now, d, s.net, s.buy_share⟩
  simp only [detect_run, hd, if_neg h1, if_neg hdz, hl] at heq
  by_cases h3 : (l ++ [(⟨ts_now, d, s.net, s.buy_share⟩ : BiasSample)]).length < 3
  · rw [if_pos h3, Prod.mk.injEq] at heq
    obtain ⟨hh2, hres⟩ := heq
    subst hh2
    subst hres
    constructor
    · intro h; exact absurd h (by simp)
    · rintro ⟨hrun, _⟩
      simp only [specRun] at hrun
      exact absurd hrun.1 (by omega)
  · have h3' : 3 ≤ (l ++ [(⟨ts_now, d, s.net, s.buy_share⟩ : BiasSample)]).length :=
      not_lt.mp h3
    obtain ⟨a, b, hrec⟩ := lastThree_append l _ h3'
    have hdropRec := hrec
    simp only [lastThree] at hdropRec
    rw [if_neg h3] at heq
    simp only [hdropRec, List.getD_cons_zero, List.getD_cons_succ] at heq
    have hiff := specRun_triplet_iff l ⟨ts_now, d, s.net, s.buy_share⟩ d rfl hdz h3'
      a b hrec
    by_cases hC : a.dir ≠ 0 ∧ b.dir = a.dir ∧
        (⟨ts_now, d, s.net, s.buy_share⟩ : BiasSample).dir = a.dir
    · rw [if_pos hC] at heq
      by_cases hD : (|a.net| ≤ |b.net| ∧
            |b.net| ≤ |(⟨ts_now, d, s.net, s.buy_share⟩ : BiasSample).net|) ∧
          (if 0 < a.dir then
            7/10 ≤ (⟨ts_now, d, s.net, s.buy_share⟩ : BiasSample).share
          else (⟨ts_now, d, s.net, s.buy_share⟩ : BiasSample).share ≤ 3/10)
      · rw [if_pos hD, Prod.mk.injEq] at heq
        obtain ⟨hh2, hres⟩ := heq
        subst hh2
        subst hres
        have had : a.dir = d := hC.2.2.symm
        constructor
        · intro h
          injection h with h
          refine ⟨hiff.mpr ⟨hC, hD⟩, ?_⟩
          rw [← h, had]
        · rintro ⟨_, hr⟩
          rw [hr, had]
      · rw [if_neg hD, Prod.mk.injEq] at heq
        obtain ⟨hh2, hres⟩ := heq
        subst hh2
        subst hres
        constructor
        · intro h; exact absurd h (by simp)
        · rintro ⟨hrun, _⟩
          exact absurd (hiff.mp hrun).2 hD
    · rw [if_neg hC] at heq
      rw [Prod.mk.injEq] at heq
      obtain ⟨hh2, hres⟩ := heq
      subst hh2
      subst hres
      constructor
      · intro h; exact absurd h (by simp)
      · rintro ⟨hrun, _⟩
        exact absurd (hiff.mp hrun).1 hC

/-- C6: `_detect_run` returns a run record exactly when the 1-second flow
stats exist with positive total and non-zero net (so a bias sample is
recorded for the current call), and the last 3 recorded bias samples —
including the current one — satisfy the §4.2 trigger rule (`specRun`): same
non-zero direction, non-decreasing absolute net magnitudes, and a decisive
most recent buy share (≥ 0.7 for a buy run, ≤ 0.3 for a sell run); fewer
than 3 samples, a zero-total current window, or any opposite-direction
sample in the triplet yields none. -/
theorem detect_run_trigger_iff :
    ∀ (hist : List BiasSample) (ts_now : ℚ) (one_sec : Option FlowStats)
      (hist2 : List BiasSample) (res : Option RunInfo) (r : RunInfo),
    detect_run hist ts_now one_sec = (hist2, res) →
    (res = some r ↔
      ∃ s, one_sec = some s ∧ 0 < s.total ∧ s.net ≠ 0 ∧
        specRun hist2 (if 0 < s.net then 1 else -1) ∧
        r = ⟨if 0 < s.net then "BUY" else "SELL", s.net, s.buy_share⟩) := by
  intro hist ts_now one_sec hist2 res r heq
  cases one_sec with
  | none =>
    rw [show detect_run hist ts_now none = (hist, none) from rfl,
      Prod.mk.injEq] at heq
    obtain ⟨hh2, hres⟩ := heq
    subst hres
    constructor
    · intro h; exact absurd h (by simp)
    · rintro ⟨s2, hs2, _⟩
      exact absurd hs2 (by simp)
  | some s =>
    by_cases h1 : s.total ≤ 0
    · rw [show detect_run hist ts_now (some s) = (hist, none) from by
        simp only [detect_run, if_pos h1], Prod.mk.injEq] at heq
      obtain ⟨hh2, hres⟩ := heq
      subst hres
      constructor
      · intro h; exact absurd h (by simp)
      · rintro ⟨s2, hs2, htot, _⟩
        injection hs2 with hs2
        subst hs2
        exact absurd htot (not_lt.mpr h1)
    · rcases lt_trichotomy s.net 0 with hneg | hzero | hpos
      · have hd : (if 0 < s.net then (1 : Int) else if s.net < 0 then -1 else 0) =
            (if 0 < s.net then 1 else -1) := by
          rw [if_neg (not_lt.mpr hneg.le), if_neg (not_lt.mpr hneg.le), if_pos hneg]
        have hdz : (if 0 < s.net then (1 : Int) else -1) ≠ 0 := by
          split_ifs <;> norm_num
        have hx := detect_run_some_case hist ts_now s (if 0 < s.net then 1 else -1)
          h1 hdz hd hist2 res r heq
        have hbs : (if (0 : Int) < (if 0 < s.net then (1 : Int) else -1)
              then "BUY" else "SELL") = (if 0 < s.net then "BUY" else "SELL") := by
          by_cases hp : 0 < s.net <;> simp [hp]
        rw [hx]
        constructor
        · rintro ⟨hrun, hr⟩
          rw [hbs] at hr
          exact ⟨s, rfl, not_le.mp h1, hneg.ne, hrun, hr⟩
        · rintro ⟨s2, hs2, _, _, hrun, hr⟩
          injection hs2 with hs2
          subst hs2
          rw [← hbs] at hr
          exact ⟨hrun, hr⟩
      · have hres : detect_run hist ts_now (some s) = (hist, none) := by
          simp only [detect_run, if_neg h1, hzero]
          norm_num
        rw [hres, Prod.mk.injEq] at heq
        obtain ⟨hh2, hres2⟩ := heq
        subst hres2
        constructor
        · intro h; exact absurd h (by simp)
        · rintro ⟨s2, hs2, _, hnz, _⟩
          injection hs2 with hs2
          subst hs2
          exact absurd hzero hnz
      · have hd : (if 0 < s.net then (1 : Int) else if s.net < 0 then -1 else 0) =
            (if 0 < s.net then 1 else -1) := by
          rw [if_pos hpos, if_pos hpos]
        have hdz : (if 0 < s.net then (1 : Int) else -1) ≠ 0 := by
          split_ifs <;> norm_num
        have hx := detect_run_some_case hist ts_now s (if 0 < s.net then 1 else -1)
          h1 hdz hd hist2 res r heq
        have hbs : (if (0 : Int) < (if 0 < s.net then (1 : Int) else -1)
              then "BUY" else "SELL") = (if 0 < s.net then "BUY" else "SELL") := by
          by_cases hp : 0 < s.net <;> simp [hp]
        rw [hx]
        constructor
        · rintro ⟨hrun, hr⟩
          rw [hbs] at hr
          exact ⟨s, rfl, not_le.mp h1, hpos.ne', hrun, hr⟩
        · rintro ⟨s2, hs2, _, _, hrun, hr⟩
          injection hs2 with hs2
          subst hs2
          rw [← hbs] at hr
          exact ⟨hrun, hr⟩

/-- Witness for C6 at a concrete call with fewer than three samples. -/
theorem detect_run_trigger_iff_witness :
    ((none : Option RunInfo) = some ⟨"BUY", 3, 4/5⟩ ↔
      ∃ s, (some (⟨4, 1, 5, 4/5, 3⟩ : FlowStats) : Option FlowStats) = some s ∧
        0 < s.total ∧ s.net ≠ 0 ∧
        specRun [⟨0, 1, 3, 4/5⟩] (if 0 < s.net then 1 else -1) ∧
        (⟨"BUY", 3, 4/5⟩ : RunInfo) =
          ⟨if 0 < s.net then "BUY" else "SELL", s.net, s.buy_share⟩) :=
  detect_run_trigger_iff [] 0 (some ⟨4, 1, 5, 4/5, 3⟩) [⟨0, 1, 3, 4/5⟩] none
    ⟨"BUY", 3, 4/5⟩
    (by norm_num [detect_run, pushBias])

/-! ## Weak-side lemmas (C7) -/

lemma weakSide_iff (b a : ℚ) :
    (∀ r : ℚ, weakSide b a = some ("bid", r) ↔
      (0 < b ∧ 0 < a ∧ b < 4/10 * a ∧ r = b / a)) ∧
    (∀ r : ℚ, weakSide b a = some ("ask", r) ↔
      (0 < b ∧ 0 < a ∧ a < 4/10 * b ∧ r = a / b)) ∧
    (b = 0 ∨ a = 0 → weakSide b a = none) := by
  refine ⟨?_, ?_, ?_⟩
  · intro r
    rw [weakSide]
    split_ifs with h1 h2 h3
    · constructor
      · intro h
        injection h with h
        rw [Prod.mk.injEq] at h
        exact ⟨h1.1, h1.2, h2, h.2.symm⟩
      · rintro ⟨_, _, _, hr⟩
        rw [hr]
    · constructor
      · intro h
        injection h with h
        rw [Prod.mk.injEq] at h
        exact absurd h.1 (by decide)
      · rintro ⟨_, _, hba, _⟩
        exact absurd hba h2
    · constructor
      · intro h; exact absurd h (by simp)
      · rintro ⟨_, _, hba, _⟩
        exact absurd hba h2
    · constructor
      · intro h; exact absurd h (by simp)
      · rintro ⟨hb, ha, _, _⟩
        exact absurd ⟨hb, ha⟩ h1
  · intro r
    rw [weakSide]
    split_ifs with h1 h2 h3
    · constructor
      · intro h
        injection h with h
        rw [Prod.mk.injEq] at h
        exact absurd h.1 (by decide)
      · rintro ⟨hb, ha, hab, _⟩
        exact absurd hab (by intro hab2; nlinarith [h1.1, h1.2, h2])
    · constructor
      · intro h
        injection h with h
        rw [Prod.mk.injEq] at h
        exact ⟨h1.1, h1.2, h3, h.2.symm⟩
      · rintro ⟨_, _, _, hr⟩
        rw [hr]
    · constructor
      · intro h; exact absurd h (by simp)
      · rintro ⟨_, _, hab, _⟩
        exact absurd hab h3
    · constructor
      · intro h; exact absurd h (by simp)
      · rintro ⟨hb, ha, _, _⟩
        exact absurd ⟨hb, ha⟩ h1
  · intro h0
    rw [weakSide]
    split_ifs with h1 h2 h3
    · rcases h0 with h | h
      · exact absurd (h ▸ h1.1) (lt_irrefl 0)
      · exact absurd (h ▸ h1.2) (lt_irrefl 0)
    · rcases h0 with h | h
      · exact absurd (h ▸ h1.1) (lt_irrefl 0)
      · exact absurd (h ▸ h1.2) (lt_irrefl 0)
    · rfl
    · rfl

/-- C7: for every order-book state and configured band, a weak-bid flag is
produced exactly when both band depths are strictly positive and
`bid_depth < 0.4 * ask_depth` (symmetrically for weak-ask), with the
reported ratio equal to the weaker depth divided by the stronger; when
either depth is zero no weak-side flag is produced (and hence no division
is performed). -/
theorem weak_side_flag_iff :
    ∀ (bids asks : List (ℚ × ℚ)) (pct : ℚ),
    (∀ r : ℚ, weakSideForBand bids asks pct = some ("bid", r) ↔
      (0 < (liquidity_within bids asks pct).1 ∧
        0 < (liquidity_within bids asks pct).2 ∧
        (liquidity_within bids asks pct).1 <
          4/10 * (liquidity_within bids asks pct).2 ∧
        r = (liquidity_within bids asks pct).1 /
          (liquidity_within bids asks pct).2)) ∧
    (∀ r : ℚ, weakSideForBand bids asks pct = some ("ask", r) ↔
      (0 < (liquidity_within bids asks pct).1 ∧
        0 < (liquidity_within bids asks pct).2 ∧
        (liquidity_within bids asks pct).2 <
          4/10 * (liquidity_within bids asks pct).1 ∧
        r = (liquidity_within bids asks pct).2 /
          (liquidity_within bids asks pct).1)) ∧
    ((liquidity_within bids asks pct).1 = 0 ∨
        (liquidity_within bids asks pct).2 = 0 →
      weakSideForBand bids asks pct = none) := by
  intro bids asks pct
  exact weakSide_iff (liquidity_within bids asks pct).1
    (liquidity_within bids asks pct).2

/-- C8: the grid-search harness visits exactly the Cartesian product of
`WINDOW_LIST × PRICE_BP_LIST × VOL_MIN_LIST`, once per tuple, in
outer-to-inner order (window, then price threshold, then volume minimum),
and each reported entry's payload is the detector run followed by the
evaluator run for its own tuple. -/
theorem grid_search_full_product :
    ∀ (ticks : List TickRow),
    (gridResults ticks).map (fun e => (e.window, e.bp, e.vol_min)) =
      [(3/10, 3, 2), (3/10, 3, 5), (3/10, 3, 10),
       (3/10, 5, 2), (3/10, 5, 5), (3/10, 5, 10),
       (3/10, 8, 2), (3/10, 8, 5), (3/10, 8, 10),
       (3/5, 3, 2), (3/5, 3, 5), (3/5, 3, 10),
       (3/5, 5, 2), (3/5, 5, 5), (3/5, 5, 10),
       (3/5, 8, 2), (3/5, 8, 5), (3/5, 8, 10),
       (1, 3, 2), (1, 3, 5), (1, 3, 10),
       (1, 5, 2), (1, 5, 5), (1, 5, 10),
       (1, 8, 2), (1, 8, 5), (1, 8, 10)] ∧
    ((gridResults ticks).map (fun e => (e.window, e.bp, e.vol_min))).Nodup ∧
    ∀ e ∈ gridResults ticks,
      e.sweeps = detect_sweeps_py ticks e.window e.bp e.vol_min ∧
      e.down_rets = (compute_ret_stats ticks e.sweeps T_HORIZON).1 ∧
      e.up_rets = (compute_ret_stats ticks e.sweeps T_HORIZON).2 := by
  intro ticks
  have h1 : (gridResults ticks).map (fun e => (e.window, e.bp, e.vol_min)) =
      [((3:ℚ)/10, (3:ℚ), (2:ℚ)), (3/10, 3, 5), (3/10, 3, 10),
       (3/10, 5, 2), (3/10, 5, 5), (3/10, 5, 10),
       (3/10, 8, 2), (3/10, 8, 5), (3/10, 8, 10),
       (3/5, 3, 2), (3/5, 3, 5), (3/5, 3, 10),
       (3/5, 5, 2), (3/5, 5, 5), (3/5, 5, 10),
       (3/5, 8, 2), (3/5, 8, 5), (3/5, 8, 10),
       (1, 3, 2), (1, 3, 5), (1, 3, 10),
       (1, 5, 2), (1, 5, 5), (1, 5, 10),
       (1, 8, 2), (1, 8, 5), (1, 8, 10)] := rfl
  refine ⟨h1, ?_, ?_⟩
  · rw [h1]
    norm_num [List.nodup_cons, Prod.ext_iff]
  · intro e he
    simp only [gridResults, List.mem_flatMap, List.mem_map] at he
    obtain ⟨w, _, bp, _, vm, _, he⟩ := he
    subst he
    exact ⟨rfl, rfl, rfl⟩
